import Mathlib

/-!
Verification of the mk build tool (a Go reimplementation of Plan 9 mk).

Shallow embedding notes.  Go strings are modelled as rune sequences
(List Char): utf8.DecodeRuneInString on a nonempty string returns its first
rune with a positive width, and every index the Go code computes comes from
IndexAny / IndexRune / a previous decode, so rune positions are in
one-to-one correspondence with the byte positions the Go code manipulates
(and coincide with them on ASCII input).  Maps are association lists,
subprocess invocation is an oracle parameter, and loops that are not
structurally terminating in the source take a fuel argument; fuel
exhaustion is marked by a distinguished result so that it can never be
confused with a genuine result.
-/

namespace Mk

/-- Strings as sequences of runes. -/
abbrev Str := List Char

/-- Variable tables map a variable name to an ordered list of values
(the Go map from string to string slice). -/
abbrev Vars := List (Str × List Str)

/-- Oracle for backtick substitution: the word list produced by running the
shell on the quoted text and lexing its standard output.  The source calls
the subprocess layer here, which the embedding treats as a parameter. -/
abbrev ShOracle := Str → List Str

/-- The replacement rune returned by utf8.DecodeRuneInString on empty input. -/
def replRune : Char := Char.ofNat 0xFFFD

/-- utf8.DecodeRuneInString: first rune and its width; on an empty string
the Go function yields (RuneError, 0). -/
def decodeRune : Str → Char × Nat
  | [] => (replRune, 0)
  | c :: _ => (c, 1)

/-- strings.IndexAny: index of the first rune belonging to the given set,
or none. -/
def indexAny (cs : List Char) : Str → Option Nat
  | [] => none
  | c :: rest =>
    if c ∈ cs then some 0
    else match indexAny cs rest with
      | some j => some (j + 1)
      | none => none

/-- strings.IndexRune / strings.Index for a single rune. -/
def indexRune (c : Char) (s : Str) : Option Nat := indexAny [c] s

/-- Character class test from rules.go (isalpha). -/
def isalpha (c : Char) : Bool := ('a' ≤ c && c ≤ 'z') || ('A' ≤ c && c ≤ 'Z')

/-- Character class test from rules.go (isdigit). -/
def isdigit (c : Char) : Bool := '0' ≤ c && c ≤ '9'

/-- Character class test from rules.go (isalnum). -/
def isalnum (c : Char) : Bool := isalpha c || isdigit c

/-- Whitespace class of RE2 backslash-s: tab, newline, form feed, carriage
return, space. -/
def goIsSpace (c : Char) : Bool :=
  c = '\t' || c = '\n' || c = Char.ofNat 0x0C || c = Char.ofNat 0x0D || c = ' '

/-- Loop body of isValidVarName from rules.go: the first rune must be a
letter or underscore, every rune must be alphanumeric or underscore. -/
def isValidVarNameAux : Nat → Str → Bool
  | _, [] => true
  | i, c :: rest =>
    if i == 0 && !(isalpha c || c == '_') then false
    else if !(isalnum c || c == '_') then false
    else isValidVarNameAux (i + 1) rest

/-- isValidVarName from rules.go. -/
def isValidVarName (v : Str) : Bool := isValidVarNameAux 0 v

/-- Length of the leading whitespace run (used to evaluate the leading
backslash-s-star parts of the namelist pattern). -/
def wsRun (s : Str) : Nat := (s.takeWhile goIsSpace).length

/-- Lookup in the variable table (Go map indexing). -/
def varsLookup (vars : Vars) (name : Str) : Option (List Str) :=
  match vars with
  | [] => none
  | (k, v) :: rest => if k = name then some v else varsLookup rest name

/-!
The namelist pattern of expandSigil is the fixed Go regular expression

  caret s-star ([^:]+) s-star colon s-star ([^%]*) percent ([^=]*) s-star
  equals s-star ([^%]*) percent ([^%]*) s-star

matched with leftmost-first submatch semantics.  Because each character
class excludes the separator that follows it, the separators are forced to
be the first colon, the first percent after it, the first equals after
that, and the next percent; the only backtracking that can occur is the
initial whitespace run yielding characters to the nonempty group one.  The
following function is that forced match, written out directly. -/

/-- FindStringSubmatch of the namelist pattern: on success, the five
submatches (name, a, b, c, d) of a namelist body NAME:a%b=c%d. -/
def matchNamelist (s : Str) : Option (Str × Str × Str × Str × Str) :=
  match indexRune ':' s with
  | none => none
  | some k =>
    if k = 0 then none
    else
      let i := min (wsRun s) (k - 1)
      let g1 := (s.drop i).take (k - i)
      let rest := s.drop (k + 1)
      match indexRune '%' rest with
      | none => none
      | some m =>
        let w0 := min (wsRun rest) m
        let g2 := (rest.drop w0).take (m - w0)
        let rest2 := rest.drop (m + 1)
        match indexRune '=' rest2 with
        | none => none
        | some e =>
          let g3 := rest2.take e
          let rest3 := rest2.drop (e + 1)
          match indexRune '%' rest3 with
          | none => none
          | some m2 =>
            let w2 := min (wsRun rest3) m2
            let g4 := (rest3.drop w2).take (m2 - w2)
            let rest4 := rest3.drop (m2 + 1)
            let g5 := match indexRune '%' rest4 with
              | none => rest4
              | some m3 => rest4.take m3
            some (g1, g2, g3, g4, g5)

/-- Whether the two-rune sequence backslash E occurs in a string.  The
namelist branch splices a and b between quoting markers when it builds its
value pattern; a backslash-E inside a or b terminates that quoting early,
after which the leftover text is parsed as pattern syntax, so the regexp
compiler either aborts the process on the stray escape or compiles a
pattern with a different meaning.  Statements about the namelist value
match therefore exclude such a and b. -/
def hasQuoteE : Str → Bool
  | c :: d :: rest => (c == '\\' && d == 'E') || hasQuoteE (d :: rest)
  | _ => false

/-- Match of the anchored pattern caret quoted-a (.*) quoted-b dollar built
by the namelist branch, for a and b free of the backslash-E quoting
terminator (see hasQuoteE): since a and b have fixed lengths the capture
region is forced, so the value matches exactly when it is long enough,
starts with a, ends with b, and the forced middle contains no newline (the
dot of the pattern does not match a newline without the s flag, and the
pattern sets no flags). -/
def qeMatch (a b v : Str) : Option Str :=
  if a.length + b.length ≤ v.length ∧ v.take a.length = a ∧
      v.drop (v.length - b.length) = b ∧
      '\n' ∉ (v.drop a.length).take (v.length - a.length - b.length) then
    some ((v.drop a.length).take (v.length - a.length - b.length))
  else none

/-- Element transformation of the namelist branch of expandSigil: a
matching value a X b becomes c X d, anything else passes through. -/
def namelistSub (a b c d v : Str) : Str :=
  match qeMatch a b v with
  | some x => c ++ x ++ d
  | none => v

/-- The body of a braced namelist reference: NAME colon a percent b equals
c percent d.  Convenience constructor for statements about the namelist
branch. -/
def namelistForm (nm a b c d : Str) : Str :=
  nm ++ ':' :: a ++ '%' :: b ++ '=' :: c ++ '%' :: d

/-- Length of the variable-name scan of the bare-variable branch of
expandSigil: longest run of letters or underscores, with digits allowed
after the first rune. -/
def bareNameLen : Nat → Str → Nat
  | _, [] => 0
  | j, c :: rest =>
    if isalpha c || c == '_' || (decide (j > 0) && isdigit c) then
      bareNameLen (j + 1) rest + 1
    else 0

/-- expandSigil from expand.go: expansion of the text following a dollar
rune.  Returns the produced parts and the number of runes the caller must
skip (the source hard-codes 2 in the dollar-dollar branch even though only
one rune of its input was consumed). -/
def expandSigil (input : Str) (vars : Vars) : List Str × Nat :=
  let tail := fun (varname : Str) (offset : Nat) =>
    if isValidVarName varname then
      match varsLookup vars varname with
      | some varvals => (varvals, offset)
      | none => ([('$' :: input.take offset)], offset)
    else ([('$' :: input)], input.length)
  match input with
  | '$' :: _ => ([['$']], 2)
  | '{' :: rest =>
    match indexRune '}' rest with
    | none => ([('$' :: input)], input.length)
    | some j =>
      let varname := rest.take j
      let offset := 1 + j + 1
      match matchNamelist varname with
      | some (nm, a, b, c, d) =>
        if isValidVarName nm then
          match varsLookup vars nm with
          | none => ([], offset)
          | some values => (values.map (namelistSub a b c d), offset)
        else tail varname offset
      | none => tail varname offset
  | _ =>
    let j := bareNameLen 0 input
    if j > 0 then tail (input.take j) j
    else ([('$' :: input)], input.length)

/-- expandEscape from expand.go: the text following a backslash. -/
def expandEscape (input : Str) : Str × Nat :=
  let (c, w) := decodeRune input
  if c = '\t' || c = ' ' then ([c], w) else (['\\', c], w)

/-- The single-quote rune, written by code point to keep literals simple. -/
def squote : Char := Char.ofNat 39

/-- expandSingleQuoted from expand.go: the text following an opening
single quote. -/
def expandSingleQuoted (input : Str) : Str × Nat :=
  match indexRune squote input with
  | none => (input, input.length)
  | some j => (input.take j, j + 1)

/-- expandBackQuoted from expand.go, with the subprocess plus word-lexing
step supplied by the oracle. -/
def expandBackQuoted (sh : ShOracle) (input : Str) : List Str × Nat :=
  match indexRune '`' input with
  | none => ([input], input.length)
  | some j => (sh (input.take j), j + 1)

/-- Join with single spaces (strings.Join with a space separator). -/
def joinSpace : List Str → Str
  | [] => []
  | [x] => x
  | x :: rest => x ++ ' ' :: joinSpace rest

/-- Append the pending word to the part list if it is nonempty (the
post-loop step of expand). -/
def flushWord (parts : List Str) (expanded : Str) : List Str :=
  if expanded.isEmpty then parts else parts ++ [expanded]

/-- Special characters scanned for by expand. -/
def expandSpecials : List Char := ['"', squote, '`', '$', '\\']

/-- List composition of the dollar branch of expand: the text accumulated
so far is prepended to the first produced part, intermediate parts become
words of their own, and the word under construction continues from the
last part; an empty part list leaves the state unchanged. -/
def sigilCompose (parts : List Str) (expanded1 : Str) :
    List Str → List Str × Str
  | [] => (parts, expanded1)
  | [x] => (parts, expanded1 ++ x)
  | x :: y :: rest =>
    (parts ++ (expanded1 ++ x) :: (y :: rest).dropLast,
      (y :: rest).getLast (by simp))

mutual

/-- expand from expand.go.  The fuel bounds the number of loop iterations
and nested calls; each concrete use supplies enough fuel for the run to
finish, and exhaustion returns the empty list. -/
def expandFuel : Nat → ShOracle → Str → Vars → Bool → List Str
  | 0, _, _, _, _ => []
  | fuel + 1, sh, input, vars, bt => expandLoop fuel sh input vars bt 0 [] []

/-- Loop of expand: i is the scan position, parts the finished words,
expanded the word being built. -/
def expandLoop : Nat → ShOracle → Str → Vars → Bool → Nat → List Str → Str →
    List Str
  | 0, _, _, _, _, _, _, _ => []
  | fuel + 1, sh, input, vars, bt, i, parts, expanded =>
    if i < input.length then
      match indexAny expandSpecials (input.drop i) with
      | none => flushWord parts (expanded ++ input.drop i)
      | some jrel =>
        let j := jrel + i
        let expanded1 := expanded ++ (input.drop i).take jrel
        let c := (decodeRune (input.drop j)).1
        let i1 := j + (decodeRune (input.drop j)).2
        if c = '\\' then
          let r := expandEscape (input.drop i1)
          expandLoop fuel sh input vars bt (i1 + r.2) parts (expanded1 ++ r.1)
        else if c = '"' then
          let r := expandDoubleQuoted fuel sh (input.drop i1) vars bt
          expandLoop fuel sh input vars bt (i1 + r.2) parts (expanded1 ++ r.1)
        else if c = squote then
          let r := expandSingleQuoted (input.drop i1)
          expandLoop fuel sh input vars bt (i1 + r.2) parts (expanded1 ++ r.1)
        else if c = '`' then
          if bt then
            let r := expandBackQuoted sh (input.drop i1)
            let outparts := r.1
            if outparts.length > 0 then
              let outparts1 := (expanded1 ++ outparts.head!) :: outparts.tail
              expandLoop fuel sh input vars bt (i1 + r.2)
                (parts ++ outparts1.dropLast) (outparts1.getLast!)
            else expandLoop fuel sh input vars bt (i1 + r.2) parts expanded1
          else
            expandLoop fuel sh input vars bt (i1 + input.length) parts
              (expanded1 ++ input)
        else if c = '$' then
          let r := expandSigil (input.drop i1) vars
          let pe := sigilCompose parts expanded1 r.1
          expandLoop fuel sh input vars bt (i1 + r.2) pe.1 pe.2
        else expandLoop fuel sh input vars bt i1 parts expanded1
    else flushWord parts expanded

/-- expandDoubleQuoted from expand.go: the text following an opening
double quote. -/
def expandDoubleQuoted : Nat → ShOracle → Str → Vars → Bool → Str × Nat
  | 0, _, input, _, _ => (input, input.length)
  | fuel + 1, sh, input, vars, bt => expandDQLoop fuel sh input vars bt 0

/-- Scan loop of expandDoubleQuoted.  The source reassigns to j the index
returned by IndexAny on the suffix starting at j without rebasing it, and
the model reproduces that conflated index faithfully in the branch tests.
In the rescanned-iteration case where the conflated index lands on a rune
that is neither a quote nor a backslash the source keeps scanning from the
advanced index and can revisit the same positions forever; the model maps
that branch to the distinguished unterminated-quote result (final else).
No statement proved below reaches it: their quoted bodies contain no
backslash, so the first IndexAny result is never conflated. -/
def expandDQLoop : Nat → ShOracle → Str → Vars → Bool → Nat → Str × Nat
  | 0, _, input, _, _, _ => (input, input.length)
  | fuel + 1, sh, input, vars, bt, j0 =>
    match indexAny ['"', '\\'] (input.drop j0) with
    | none => (input, input.length)
    | some jrel =>
      let j1 := jrel
      let c := (decodeRune (input.drop j1)).1
      let w := (decodeRune (input.drop j1)).2
      let j2 := j1 + w
      if c = '"' then
        (joinSpace (expandFuel fuel sh (input.take j2) vars bt), j2 + w)
      else if c = '\\' then
        if j2 + w < input.length then
          let j3 := j2 + w
          expandDQLoop fuel sh input vars bt (j3 + (decodeRune (input.drop j3)).2)
        else (input, input.length)
      else (input, input.length)

end

/-- Default fuel: generous bound on the call depth and iteration count of
one expansion (each iteration consumes at least one input rune or one
special character). -/
def expandGauge (input : Str) : Nat := 2 * input.length + 16

/-- Top-level word expansion (expand from expand.go with computed fuel). -/
def expand (sh : ShOracle) (input : Str) (vars : Vars) (bt : Bool) : List Str :=
  expandFuel (expandGauge input) sh input vars bt

/-- Result of running the suffix-expansion loop: a value, a Go runtime
panic (slicing with a start index beyond the end index), or fuel
exhaustion standing for an infinite loop of the source. -/
inductive SuffixResult where
  | ok (val : Str)
  | panicked
  | fuelOut
  deriving DecidableEq, Repr

/-- Loop of expandSuffixes from expand.go.  The index j returned by
IndexAny on the suffix starting at i is used without rebasing by i, exactly
as in the source: the slice from i to j panics when j is less than i, and
when the rune after a backslash is not a percent the position does not
advance. -/
def expandSuffixesLoop (input stem : Str) : Nat → Nat → Str → SuffixResult
  | 0, _, _ => .fuelOut
  | fuel + 1, i, expanded =>
    if i < input.length then
      match indexAny ['\\', '%'] (input.drop i) with
      | none => .ok (expanded ++ input.drop i)
      | some j =>
        let c := (decodeRune (input.drop j)).1
        let w := (decodeRune (input.drop j)).2
        if j < i then .panicked
        else
          let expanded1 := expanded ++ (input.drop i).take (j - i)
          if c = '%' then
            expandSuffixesLoop input stem fuel (j + w) (expanded1 ++ stem)
          else
            let j2 := j + w
            let c2 := (decodeRune (input.drop j2)).1
            let w2 := (decodeRune (input.drop j2)).2
            if c2 = '%' then
              expandSuffixesLoop input stem fuel (j2 + w2) (expanded1 ++ ['%'])
            else expandSuffixesLoop input stem fuel i expanded1
    else .ok expanded

/-- expandSuffixes from expand.go with computed fuel. -/
def expandSuffixes (input stem : Str) : SuffixResult :=
  expandSuffixesLoop input stem (2 * input.length + 2) 0 []

/-- Transcription of the specification sentence for suffix expansion:
replace each unescaped percent with the stem, a backslash-percent pair
yields a literal percent, and every other rune is copied unchanged.  This
definition follows the words of the claim, for comparison with the source
translation expandSuffixes. -/
def expandSuffixesClaim (stem : Str) : Str → Str
  | [] => []
  | '\\' :: '%' :: rest => '%' :: expandSuffixesClaim stem rest
  | '%' :: rest => stem ++ expandSuffixesClaim stem rest
  | c :: rest => c :: expandSuffixesClaim stem rest

/-! Rule attributes (rules.go). -/

/-- attribSet from rules.go. -/
structure AttribSet where
  delFailed : Bool
  nonstop : Bool
  forcedTimestamp : Bool
  nonvirtual : Bool
  quiet : Bool
  regex : Bool
  update : Bool
  virtual : Bool
  exclusive : Bool
  deriving DecidableEq, Repr

/-- Result of parseAttribs: the updated attribute flags, the comparator
argv (command), the shell argv, and the offending rune when the scan
failed. -/
structure PAResult where
  attrs : AttribSet
  command : List Str
  shell : List Str
  err : Option Char
  deriving DecidableEq, Repr

/-- Nested scan of parseAttribs from rules.go: the current word rune by
rune, then the remaining words.  P and S consume the remainder of the word
(when nonempty) plus all following words and return successfully; any
unrecognized rune returns an attribute error. -/
def paGo (a : AttribSet) (cmd sh : List Str) : Str → List Str → PAResult
  | [], [] => ⟨a, cmd, sh, none⟩
  | [], w :: rest => paGo a cmd sh w rest
  | c :: cs, rest =>
    match c with
    | 'D' => paGo { a with delFailed := true } cmd sh cs rest
    | 'E' => paGo { a with nonstop := true } cmd sh cs rest
    | 'N' => paGo { a with forcedTimestamp := true } cmd sh cs rest
    | 'n' => paGo { a with nonvirtual := true } cmd sh cs rest
    | 'Q' => paGo { a with quiet := true } cmd sh cs rest
    | 'R' => paGo { a with regex := true } cmd sh cs rest
    | 'U' => paGo { a with update := true } cmd sh cs rest
    | 'V' => paGo { a with virtual := true } cmd sh cs rest
    | 'X' => paGo { a with exclusive := true } cmd sh cs rest
    | 'P' => ⟨a, cmd ++ (if cs.isEmpty then [] else [cs]) ++ rest, sh, none⟩
    | 'S' => ⟨a, cmd, sh ++ (if cs.isEmpty then [] else [cs]) ++ rest, none⟩
    | _ => ⟨a, cmd, sh, some c⟩
  termination_by cs rest => (rest.length, cs.length)

/-- parseAttribs from rules.go, acting on a rule whose attribute flags are
a and whose accumulated command and shell argv are cmd and sh. -/
def parseAttribs (a : AttribSet) (cmd sh : List Str) (inputs : List Str) :
    PAResult :=
  paGo a cmd sh [] inputs

/-- The nine attribute letters that only set a flag. -/
def attribLetters : List Char := ['D', 'E', 'N', 'n', 'Q', 'R', 'U', 'V', 'X']

/-- Flag update table used by the claim transcription. -/
def flagOf (c : Char) (a : AttribSet) : AttribSet :=
  match c with
  | 'D' => { a with delFailed := true }
  | 'E' => { a with nonstop := true }
  | 'N' => { a with forcedTimestamp := true }
  | 'n' => { a with nonvirtual := true }
  | 'Q' => { a with quiet := true }
  | 'R' => { a with regex := true }
  | 'U' => { a with update := true }
  | 'V' => { a with virtual := true }
  | 'X' => { a with exclusive := true }
  | _ => a

/-- Transcription of the claim about attribute parsing: scan the words
left to right; the longest prefix of recognized letters of each word sets
the corresponding flags; the first other rune is either P (store the
remainder of the word plus all subsequent words as the comparator argv and
stop successfully), S (likewise for the shell argv), or an error; running
out of words is success.  Written from the words of the claim, for
comparison with the source translation parseAttribs. -/
def attribsClaim (a : AttribSet) (cmd sh : List Str) : List Str → PAResult
  | [] => ⟨a, cmd, sh, none⟩
  | w :: rest =>
    let a2 := (w.takeWhile (· ∈ attribLetters)).foldl (fun x c => flagOf c x) a
    match w.dropWhile (· ∈ attribLetters) with
    | [] => attribsClaim a2 cmd sh rest
    | 'P' :: tl => ⟨a2, cmd ++ (if tl.isEmpty then [] else [tl]) ++ rest, sh, none⟩
    | 'S' :: tl => ⟨a2, cmd, sh ++ (if tl.isEmpty then [] else [tl]) ++ rest, none⟩
    | bad :: _ => ⟨a2, cmd, sh, some bad⟩

/-! Rules and the concrete-target index (rules.go and the parser). -/

/-- pattern from rules.go.  Only the nil-ness of the compiled regular
expression is ever consulted by the indexing and matching code modelled
here, so the compiled value is represented by its source text. -/
structure MkPattern where
  issuffix : Bool
  spat : Str
  rpat : Option Str
  deriving DecidableEq, Repr

/-- rule from rules.go, restricted to the fields the indexing claims
inspect. -/
structure MkRule where
  targets : List MkPattern
  attributes : AttribSet
  prereqs : List Str
  shell : List Str
  recipe : Str
  command : List Str
  ismeta : Bool
  deriving DecidableEq, Repr

/-- ruleSet from rules.go: the rule list and the concrete-target index
from target name to rule indices (a missing key reads as the empty
list, like a Go map of slices). -/
structure RuleSetM where
  rules : List MkRule
  targetrules : Str → List Nat

/-- add from rules.go: append the rule, then register its index under the
simple pattern text of every target whose compiled regex is nil. -/
def addRule (rs : RuleSetM) (r : MkRule) : RuleSetM :=
  let rules1 := rs.rules ++ [r]
  let k := rules1.length - 1
  { rules := rules1
    targetrules := r.targets.foldl (fun tr p =>
      match p.rpat with
      | none => fun name => if name = p.spat then tr name ++ [k] else tr name
      | some _ => tr) rs.targetrules }

/-- The empty rule set. -/
def emptyRuleSet : RuleSetM := ⟨[], fun _ => []⟩

/-- Soundness of the concrete-target index: every entry under a name
points to a rule in the set having a literal (nil-regex) target pattern
whose text is that name. -/
def WellIndexed (rs : RuleSetM) : Prop :=
  ∀ name k, k ∈ rs.targetrules name →
    ∃ hk : k < rs.rules.length,
      ∃ p ∈ (rs.rules.get ⟨k, hk⟩).targets, p.rpat = none ∧ p.spat = name

/-- A one-target literal rule used to exercise the indexing. -/
def c10rule : MkRule :=
  { targets := [{ issuffix := false, spat := ['a'], rpat := none }]
    attributes := ⟨false, false, false, false, false, false, false, false,
      false⟩
    prereqs := []
    shell := []
    recipe := []
    command := []
    ismeta := false }

/-- Target-pattern construction of parseRecipe in the parser: under the
regex attribute the target compiles to an anchored regex; otherwise a
target containing a percent becomes a suffix pattern with a compiled
regex and marks the rule as meta; otherwise the pattern stays literal with
a nil regex.  Compilation failures terminate the process in the source
(basicErrorAtToken calls mkError, which exits), so a constructed pattern
always carries its compiled regex in the first two cases.  The quoted-meta
details of the regex source are not modelled; only nil-ness matters. -/
def mkTargetPattern (isRegexRule : Bool) (targetstr : Str) : MkPattern :=
  if isRegexRule then
    { issuffix := false, spat := targetstr, rpat := some ('^' :: targetstr ++ ['$']) }
  else
    match indexRune '%' targetstr with
    | some _ => { issuffix := true, spat := targetstr
                  rpat := some ('^' :: targetstr ++ ['$']) }
    | none => { issuffix := false, spat := targetstr, rpat := none }

/-! Dependency graph passes (mk.go). -/

/-- An edge of the dependency graph for the cycle check: the target node
(nil for edges of prereq-less rules) and the producing rule. -/
structure GEdge where
  v : Option Nat
  r : Nat
  deriving DecidableEq, Repr

/-- Result of the cycle check: the final cycle-flag assignment, a fatal
cycle error naming a node, or fuel exhaustion. -/
inductive CycleResult where
  | ok (flags : Nat → Bool)
  | cycleAt (u : Nat)
  | fuelOut

/-- Pointwise update of a flag assignment. -/
def setFlag (fl : Nat → Bool) (u : Nat) (b : Bool) : Nat → Bool :=
  fun n => if n = u then b else fl n

mutual

/-- cyclecheck from mk.go: depth-first search that errors out when it
reaches a node whose cycle flag is set and whose prerequisite list is
nonempty, sets the flag on entry and clears it on exit. -/
def cyclecheckNode (g : Nat → List GEdge) : Nat → Nat → (Nat → Bool) →
    CycleResult
  | 0, _, _ => .fuelOut
  | fuel + 1, u, flags =>
    if flags u && !(g u).isEmpty then .cycleAt u
    else
      match cyclecheckEdges g fuel (g u) (setFlag flags u true) with
      | .ok fl2 => .ok (setFlag fl2 u false)
      | r => r
  termination_by fuel _ _ => (fuel, 0)

/-- Prerequisite loop of cyclecheck: recurse into every non-nil edge. -/
def cyclecheckEdges (g : Nat → List GEdge) : Nat → List GEdge →
    (Nat → Bool) → CycleResult
  | _, [], flags => .ok flags
  | fuel, e :: es, flags =>
    match e.v with
    | none => cyclecheckEdges g fuel es flags
    | some v =>
      match cyclecheckNode g fuel v flags with
      | .ok fl2 => cyclecheckEdges g fuel es fl2
      | r => r
  termination_by fuel es _ => (fuel, es.length + 1)

end

/-- Edge relation of the graph. -/
def hasEdge (g : Nat → List GEdge) (u v : Nat) : Prop :=
  ∃ e ∈ g u, e.v = some v

/-- Reachability along edges. -/
inductive Reaches (g : Nat → List GEdge) : Nat → Nat → Prop
  | refl (u : Nat) : Reaches g u u
  | step {u v w : Nat} : hasEdge g u v → Reaches g v w → Reaches g u w

/-- Reachability along at least one edge; ReachesPlus g u u states that u
lies on a cycle. -/
def ReachesPlus (g : Nat → List GEdge) (u w : Nat) : Prop :=
  ∃ v, hasEdge g u v ∧ Reaches g v w

/-- A rank function witnessing that the part of the graph reachable from
the root is acyclic: ranks strictly decrease along every edge out of a
reachable node. -/
def RankedFrom (g : Nat → List GEdge) (root : Nat) (rank : Nat → Nat) : Prop :=
  ∀ u, Reaches g root u → ∀ e ∈ g u, ∀ v, e.v = some v → rank v < rank u

/-! The vacuous prune (mk.go). -/

/-- An edge of the graph during the vacuous prune: target node, producing
rule, and the togo pruning mark. -/
structure VEdge where
  v : Option Nat
  r : Nat
  togo : Bool
  deriving DecidableEq, Repr

/-- Per-node state during the vacuous prune: the Probable, Ready and
Vacuous flags and the prerequisite edge list. -/
structure VNode where
  probable : Bool
  ready : Bool
  vacflag : Bool
  prereqs : List VEdge
  deriving DecidableEq, Repr

/-- Graph state: node data per node id. -/
abbrev VSt := Nat → VNode

/-- Pointwise update of the graph state. -/
def updSt (st : VSt) (u : Nat) (n : VNode) : VSt :=
  fun m => if m = u then n else st m

/-- Second loop of the vacuous pass from mk.go: for every position whose
edge is currently unmarked, clear the mark of every edge produced by the
same rule.  The source iterates over the live, mutating list; the fuel is
the position count, which is exact because the list length never
changes. -/
def vacuousUnmarkGo : Nat → Nat → List VEdge → List VEdge
  | 0, _, edges => edges
  | fuel + 1, k, edges =>
    if h : k < edges.length then
      let e := edges.get ⟨k, h⟩
      let edges2 :=
        if !e.togo then
          edges.map (fun f => if f.r == e.r then { f with togo := false } else f)
        else edges
      vacuousUnmarkGo fuel (k + 1) edges2
    else edges

/-- Entry point of the second loop. -/
def vacuousUnmark (edges : List VEdge) : List VEdge :=
  vacuousUnmarkGo edges.length 0 edges

mutual

/-- vacuous from mk.go: returns whether the node is vacuous and the
updated graph.  A node already marked Ready reports only the absence of
its Probable flag; otherwise the node is marked Ready, every edge is
analyzed (marking togo the meta-rule edges to vacuous children), marks are
given back to rules with a surviving edge, marked edges are dropped
(g.togo), and the Vacuous flag is set when every edge was marked. -/
def vacuousNode (im : Nat → Bool) : Nat → Nat → VSt → Option (Bool × VSt)
  | 0, _, _ => none
  | fuel + 1, u, st =>
    let n := st u
    let vac0 := !n.probable
    if n.ready then some (vac0, st)
    else
      let st1 := updSt st u { n with ready := true }
      match vacuousEdges im fuel n.prereqs st1 vac0 with
      | none => none
      | some (edges1, st2, vacF) =>
        let edges3 := (vacuousUnmark edges1).filter (fun e => !e.togo)
        let n2 := st2 u
        let st3 := updSt st2 u
          { n2 with prereqs := edges3, vacflag := n2.vacflag || vacF }
        some (vacF, st3)
  termination_by fuel _ _ => (fuel, 0)

/-- First loop of the vacuous pass: an edge to a vacuous child under a
meta rule is marked togo; any other edge (including nil edges) clears the
accumulated vacuous verdict. -/
def vacuousEdges (im : Nat → Bool) : Nat → List VEdge → VSt → Bool →
    Option (List VEdge × VSt × Bool)
  | _, [], st, vac => some ([], st, vac)
  | fuel, e :: es, st, vac =>
    match e.v with
    | none =>
      match vacuousEdges im fuel es st false with
      | none => none
      | some (es2, st2, vac2) => some (e :: es2, st2, vac2)
    | some v =>
      match vacuousNode im fuel v st with
      | none => none
      | some (b, st2) =>
        if b && im e.r then
          match vacuousEdges im fuel es st2 vac with
          | none => none
          | some (es2, st3, vac2) => some ({ e with togo := true } :: es2, st3, vac2)
        else
          match vacuousEdges im fuel es st2 false with
          | none => none
          | some (es2, st3, vac2) => some (e :: es2, st3, vac2)
  termination_by fuel es _ _ => (fuel, es.length + 1)

end

/-- Edges of a given rule inside an edge list. -/
def ruleEdges (r : Nat) (edges : List VEdge) : List VEdge :=
  edges.filter (fun e => e.r == r)

/-- Relation between an edge before and after the first loop of the
vacuous pass: the edge is either kept unchanged, or, when its rule is a
meta rule and its child was found vacuous (which entails that the child
never acquired the Probable flag, recorded here through the probable
assignment P), marked togo. -/
inductive VEdgeMark (im : Nat → Bool) (P : Nat → Bool) : VEdge → VEdge → Prop
  | keep (e : VEdge) : VEdgeMark im P e e
  | mark (e : VEdge) (v : Nat) (hv : e.v = some v) (hm : im e.r = true)
      (hp : P v = false) : VEdgeMark im P e { e with togo := true }

/-- What the vacuous pass does to a node it processes: the node becomes
Ready, its Probable flag is untouched, its prerequisite list is filtered
by a per-rule verdict (keep-or-kill per rule), every removed edge was a
meta-rule edge to a child without the Probable flag, and the Vacuous flag
is set exactly when the node lacked the Probable flag and no prerequisite
survived. -/
def VProcessed (im : Nat → Bool) (P : Nat → Bool) (n n2 : VNode) : Prop :=
  n.ready = false ∧
  n2.ready = true ∧
  n2.probable = n.probable ∧
  (∃ keep : Nat → Bool, n2.prereqs = n.prereqs.filter (fun e => keep e.r)) ∧
  (∀ e ∈ n.prereqs, e ∉ n2.prereqs →
    im e.r = true ∧ ∃ v, e.v = some v ∧ P v = false) ∧
  n2.vacflag = (n.vacflag || (!n.probable && n2.prereqs.isEmpty))

/-- A fresh graph whose every node is unprocessed, improbable and has no
prerequisites. -/
def vacSt0 : VSt := fun _ => ⟨false, false, false, []⟩

/-! Scheduler subprocess-slot protocol (mk.go). -/

/-- Control point of a recipe worker with respect to the subprocess-slot
protocol.  Ordinary workers run reserveSubproc, the recipe, then
finishSubproc; exclusive workers run reserveExclusiveSubproc (acquire the
cross-recipe mutex, steal the remaining slots, then repeatedly resteal
after waiting until the stolen count reaches the cap), the recipe, then
finishExclusiveSubproc. -/
inductive TPc where
  | oIdle
  | oWait
  | oRun
  | oDone
  | eIdle
  | eLock
  | eDrain (stolen : Nat)
  | eRun
  | eDone
  deriving DecidableEq, Repr

/-- Whether a control point holds the cross-recipe exclusive mutex. -/
def exclHolding : TPc → Bool
  | .eLock => true
  | .eDrain _ => true
  | .eRun => true
  | _ => false

/-- Global scheduler state: the subprocsRunning counter and the control
points of the workers. -/
structure Sched where
  running : Nat
  threads : List TPc
  deriving DecidableEq, Repr

/-- Number of workers currently executing a recipe subprocess. -/
def recipesRunning (s : Sched) : Nat :=
  s.threads.countP (fun pc => pc == TPc.oRun || pc == TPc.eRun)

/-- Number of ordinary workers currently executing a recipe. -/
def oRunCount (s : Sched) : Nat := s.threads.countP (fun pc => pc == TPc.oRun)

/-- Number of workers holding the exclusive mutex. -/
def holdCount (s : Sched) : Nat := s.threads.countP (fun pc => exclHolding pc)

/-- Transition relation of the subprocess-slot protocol, translated from
reserveSubproc, finishSubproc, reserveExclusiveSubproc and
finishExclusiveSubproc.  All counter accesses in the source happen under
the condition-variable lock, so each Go critical section is one atomic
transition; a waiting thread is modelled by a transition guarded by the
condition it waits for. -/
inductive SchedStep (allowed : Nat) : Sched → Sched → Prop
  | oStart {s : Sched} {pre post : List TPc} :
      s.threads = pre ++ TPc.oIdle :: post →
      SchedStep allowed s ⟨s.running, pre ++ TPc.oWait :: post⟩
  | oReserve {s : Sched} {pre post : List TPc} :
      s.threads = pre ++ TPc.oWait :: post →
      s.running < allowed →
      SchedStep allowed s ⟨s.running + 1, pre ++ TPc.oRun :: post⟩
  | oFinish {s : Sched} {pre post : List TPc} :
      s.threads = pre ++ TPc.oRun :: post →
      SchedStep allowed s ⟨s.running - 1, pre ++ TPc.oDone :: post⟩
  | eAcquire {s : Sched} {pre post : List TPc} :
      s.threads = pre ++ TPc.eIdle :: post →
      (∀ pc ∈ s.threads, exclHolding pc = false) →
      SchedStep allowed s ⟨s.running, pre ++ TPc.eLock :: post⟩
  | eSteal {s : Sched} {pre post : List TPc} :
      s.threads = pre ++ TPc.eLock :: post →
      SchedStep allowed s
        ⟨allowed, pre ++ TPc.eDrain (allowed - s.running) :: post⟩
  | eResteal {s : Sched} {pre post : List TPc} {st : Nat} :
      s.threads = pre ++ TPc.eDrain st :: post →
      st < allowed →
      SchedStep allowed s
        ⟨allowed, pre ++ TPc.eDrain (st + (allowed - s.running)) :: post⟩
  | eEnter {s : Sched} {pre post : List TPc} {st : Nat} :
      s.threads = pre ++ TPc.eDrain st :: post →
      allowed ≤ st →
      SchedStep allowed s ⟨s.running, pre ++ TPc.eRun :: post⟩
  | eFinish {s : Sched} {pre post : List TPc} :
      s.threads = pre ++ TPc.eRun :: post →
      SchedStep allowed s ⟨0, pre ++ TPc.eDone :: post⟩

/-- Inductive invariant of the subprocess-slot protocol: at most one
worker holds the exclusive mutex; the counter never exceeds the cap; with
no drain and no exclusive run in progress the counter equals the number
of ordinary recipes running; while draining, the stolen count plus the
ordinary recipes running equals the counter; and while an exclusive
recipe runs no ordinary recipe is running and the counter sits at the
cap. -/
def SchedInv (allowed : Nat) (s : Sched) : Prop :=
  holdCount s ≤ 1 ∧
  s.running ≤ allowed ∧
  ((∀ st, TPc.eDrain st ∉ s.threads) → TPc.eRun ∉ s.threads →
    oRunCount s = s.running) ∧
  (∀ st, TPc.eDrain st ∈ s.threads → st + oRunCount s = s.running) ∧
  (TPc.eRun ∈ s.threads → oRunCount s = 0 ∧ s.running = allowed)

/-- Initial states: no running subprocess, every worker at its entry
point. -/
def SchedInit (s : Sched) : Prop :=
  s.running = 0 ∧ ∀ pc ∈ s.threads, pc = TPc.oIdle ∨ pc = TPc.eIdle

/-- Reachability of the protocol. -/
def SchedReach (allowed : Nat) : Sched → Sched → Prop :=
  Relation.ReflTransGen (SchedStep allowed)

/-- Oracle used to close concrete expansion statements: a subprocess that
produces no words. -/
def shNone : ShOracle := fun _ => []

/-!
Theorems.
-/

/-- C2: the claim states that expandSuffixes is a total function replacing
each unescaped percent by the stem, so that an input with two unescaped
percent runes yields the stem twice.  The code disagrees: the loop never
rebases the index returned by IndexAny on the suffix starting at i, so on
the input a percent b percent c with stem X the second iteration slices
from 2 to 1 and the Go runtime panics, where the specified result is
aXbXc (computed by the transcription expandSuffixesClaim). -/
theorem c2_expandSuffixes_panics_on_two_percents :
    expandSuffixes "a%b%c".toList "X".toList = SuffixResult.panicked ∧
    expandSuffixesClaim "X".toList "a%b%c".toList = "aXbXc".toList := by
  exact ⟨by decide, by decide⟩

/-- C4: the claim states that a dollar-dollar pair yields one literal
dollar and that expansion resumes immediately after the second dollar, so
a dollar dollar b expands to the word a dollar b.  The code disagrees:
expandSigil receives the text after the first dollar but still reports an
offset of 2 for this branch, so the caller also skips the rune following
the second dollar and the input expands to the word a dollar, losing b. -/
theorem c4_dollar_dollar_swallows_next_rune :
    expand shNone "a$$b".toList [] false = ["a$".toList] ∧
    "a$".toList ≠ "a$b".toList := by
  exact ⟨by decide, by decide⟩

/-! Helper lemmas about the scanning primitives. -/

theorem indexAny_eq_none {cs : List Char} :
    ∀ {s : Str}, (∀ c ∈ s, c ∉ cs) → indexAny cs s = none
  | [], _ => rfl
  | c :: rest, h => by
    have hc : c ∉ cs := h c (List.mem_cons_self c rest)
    have ih := indexAny_eq_none (s := rest) (fun x hx => h x (List.mem_cons_of_mem c hx))
    simp [indexAny, hc, ih]

theorem indexAny_append_mem {cs : List Char} {c : Char} (hc : c ∈ cs) :
    ∀ (s : Str) {t : Str}, (∀ x ∈ s, x ∉ cs) →
      indexAny cs (s ++ c :: t) = some s.length
  | [], t, _ => by simp [indexAny, hc]
  | x :: rest, t, h => by
    have hx : x ∉ cs := h x (List.mem_cons_self x rest)
    have ih := indexAny_append_mem hc rest (t := t)
      (fun y hy => h y (List.mem_cons_of_mem x hy))
    simp [indexAny, hx, ih]

theorem indexRune_append {c : Char} :
    ∀ (s : Str) {t : Str}, c ∉ s → indexRune c (s ++ c :: t) = some s.length := by
  intro s t hs
  exact indexAny_append_mem (List.mem_singleton_self c) s
    (fun y hy hmem => hs (by rwa [List.mem_singleton.mp hmem] at hy))

theorem indexRune_eq_none {c : Char} {s : Str} (hs : c ∉ s) :
    indexRune c s = none :=
  indexAny_eq_none (fun x hx hmem => hs (by rwa [List.mem_singleton.mp hmem] at hx))

theorem joinSpace_flushWord_nil (S : Str) : joinSpace (flushWord [] S) = S := by
  by_cases h : S.isEmpty
  · simp [flushWord, h, joinSpace]
    simpa [List.isEmpty_iff] using h
  · simp [flushWord, h, joinSpace]

theorem flushWord_nil_of_ne {S : Str} (h : S ≠ []) : flushWord [] S = [S] := by
  simp [flushWord, List.isEmpty_iff, h]

/-! Helper lemmas about the expansion loop on clean text. -/

theorem expandLoop_clean (fuel : Nat) (sh : ShOracle) (vars : Vars) (bt : Bool)
    {input : Str} (i : Nat) (parts : List Str) (expanded : Str)
    (hf : 0 < fuel) (h : ∀ c ∈ input.drop i, c ∉ expandSpecials) :
    expandLoop fuel sh input vars bt i parts expanded =
      flushWord parts (expanded ++ input.drop i) := by
  obtain ⟨f, rfl⟩ : ∃ f, fuel = f + 1 := ⟨fuel - 1, by omega⟩
  by_cases hi : i < input.length
  · simp only [expandLoop, hi, if_true, indexAny_eq_none h]
  · have hdrop : input.drop i = [] := List.drop_eq_nil_of_le (Nat.le_of_not_lt hi)
    simp only [expandLoop, hi, if_false, hdrop, List.append_nil]

theorem expandDQ_nil (fuel : Nat) (sh : ShOracle) (vars : Vars) (bt : Bool) :
    expandDoubleQuoted fuel sh [] vars bt = ([], 0) := by
  match fuel with
  | 0 => rfl
  | 1 => rfl
  | (f + 2) => rfl

/-- One iteration of the expansion loop whose next special character is a
double quote: clean text up to the quote joins the current word, the
quoted segment is delegated to expandDoubleQuoted, and the loop resumes
after it. -/
theorem expandLoop_step_dq (fuel : Nat) (sh : ShOracle) (vars : Vars)
    (bt : Bool) {input : Str} {i : Nat} (pre rest : Str) (hf : 0 < fuel)
    (hsplit : input.drop i = pre ++ '"' :: rest)
    (hpre : ∀ c ∈ pre, c ∉ expandSpecials) (parts : List Str) (expanded : Str) :
    expandLoop fuel sh input vars bt i parts expanded =
      expandLoop (fuel - 1) sh input vars bt
        (pre.length + i + 1 +
          (expandDoubleQuoted (fuel - 1) sh
            (input.drop (pre.length + i + 1)) vars bt).2)
        parts
        ((expanded ++ pre) ++
          (expandDoubleQuoted (fuel - 1) sh
            (input.drop (pre.length + i + 1)) vars bt).1) := by
  obtain ⟨f, rfl⟩ : ∃ f, fuel = f + 1 := ⟨fuel - 1, by omega⟩
  have hi : i < input.length := by
    by_contra hcon
    have hnil : input.drop i = [] := List.drop_eq_nil_of_le (Nat.le_of_not_lt hcon)
    rw [hnil] at hsplit
    exact absurd hsplit.symm (by simp)
  have hidx : indexAny expandSpecials (input.drop i) = some pre.length := by
    rw [hsplit]; exact indexAny_append_mem (by decide) pre hpre
  have hdropj : input.drop (pre.length + i) = '"' :: rest := by
    have h2 := congrArg (List.drop pre.length) hsplit
    rw [List.drop_drop, Nat.add_comm i pre.length] at h2
    rw [h2]
    simp
  have htakej : (input.drop i).take pre.length = pre := by
    rw [hsplit]
    exact List.take_left pre _
  rw [expandLoop]
  simp only [hi, if_true, hidx, hdropj, htakej, decodeRune]
  rw [if_neg (by decide : ¬('"' : Char) = '\\')]
  simp only [Nat.add_sub_cancel]

/-- One iteration of the expansion loop whose next special character is a
single quote. -/
theorem expandLoop_step_sq (fuel : Nat) (sh : ShOracle) (vars : Vars)
    (bt : Bool) {input : Str} {i : Nat} (pre rest : Str) (hf : 0 < fuel)
    (hsplit : input.drop i = pre ++ squote :: rest)
    (hpre : ∀ c ∈ pre, c ∉ expandSpecials) (parts : List Str) (expanded : Str) :
    expandLoop fuel sh input vars bt i parts expanded =
      expandLoop (fuel - 1) sh input vars bt
        (pre.length + i + 1 +
          (expandSingleQuoted (input.drop (pre.length + i + 1))).2)
        parts
        ((expanded ++ pre) ++
          (expandSingleQuoted (input.drop (pre.length + i + 1))).1) := by
  obtain ⟨f, rfl⟩ : ∃ f, fuel = f + 1 := ⟨fuel - 1, by omega⟩
  have hi : i < input.length := by
    by_contra hcon
    have hnil : input.drop i = [] := List.drop_eq_nil_of_le (Nat.le_of_not_lt hcon)
    rw [hnil] at hsplit
    exact absurd hsplit.symm (by simp)
  have hidx : indexAny expandSpecials (input.drop i) = some pre.length := by
    rw [hsplit]; exact indexAny_append_mem (by decide) pre hpre
  have hdropj : input.drop (pre.length + i) = squote :: rest := by
    have h2 := congrArg (List.drop pre.length) hsplit
    rw [List.drop_drop, Nat.add_comm i pre.length] at h2
    rw [h2]
    simp
  have htakej : (input.drop i).take pre.length = pre := by
    rw [hsplit]
    exact List.take_left pre _
  rw [expandLoop]
  simp only [hi, if_true, hidx, hdropj, htakej, decodeRune]
  rw [if_neg (by decide : ¬squote = '\\'), if_neg (by decide : ¬squote = '"')]
  simp only [Nat.add_sub_cancel]

/-- One iteration of the expansion loop whose next special character is a
dollar: the sigil expansion parts are composed through sigilCompose. -/
theorem expandLoop_step_dollar (fuel : Nat) (sh : ShOracle) (vars : Vars)
    (bt : Bool) {input : Str} {i : Nat} (pre rest : Str) (hf : 0 < fuel)
    (hsplit : input.drop i = pre ++ '$' :: rest)
    (hpre : ∀ c ∈ pre, c ∉ expandSpecials) (parts : List Str) (expanded : Str) :
    expandLoop fuel sh input vars bt i parts expanded =
      expandLoop (fuel - 1) sh input vars bt
        (pre.length + i + 1 +
          (expandSigil (input.drop (pre.length + i + 1)) vars).2)
        (sigilCompose parts (expanded ++ pre)
          (expandSigil (input.drop (pre.length + i + 1)) vars).1).1
        (sigilCompose parts (expanded ++ pre)
          (expandSigil (input.drop (pre.length + i + 1)) vars).1).2 := by
  obtain ⟨f, rfl⟩ : ∃ f, fuel = f + 1 := ⟨fuel - 1, by omega⟩
  have hi : i < input.length := by
    by_contra hcon
    have hnil : input.drop i = [] := List.drop_eq_nil_of_le (Nat.le_of_not_lt hcon)
    rw [hnil] at hsplit
    exact absurd hsplit.symm (by simp)
  have hidx : indexAny expandSpecials (input.drop i) = some pre.length := by
    rw [hsplit]; exact indexAny_append_mem (by decide) pre hpre
  have hdropj : input.drop (pre.length + i) = '$' :: rest := by
    have h2 := congrArg (List.drop pre.length) hsplit
    rw [List.drop_drop, Nat.add_comm i pre.length] at h2
    rw [h2]
    simp
  have htakej : (input.drop i).take pre.length = pre := by
    rw [hsplit]
    exact List.take_left pre _
  rw [expandLoop]
  simp only [hi, if_true, hidx, hdropj, htakej, decodeRune]
  rw [if_neg (by decide : ¬('$' : Char) = '\\'),
    if_neg (by decide : ¬('$' : Char) = '"'),
    if_neg (by decide : ¬('$' : Char) = squote),
    if_neg (by decide : ¬('$' : Char) = '`')]
  simp only [Nat.add_sub_cancel]

theorem expandFuel_endquote (fuel : Nat) (sh : ShOracle) (vars : Vars) (bt : Bool)
    {S : Str} (hf : 3 ≤ fuel) (hS : ∀ c ∈ S, c ∉ expandSpecials) :
    expandFuel fuel sh (S ++ ['"']) vars bt = flushWord [] S := by
  obtain ⟨m, rfl⟩ : ∃ m, fuel = m + 3 := ⟨fuel - 3, by omega⟩
  have hq : ('"' : Char) ∈ expandSpecials := by decide
  have hidx : indexAny expandSpecials ((S ++ ['"']).drop 0) = some S.length := by
    simpa using indexAny_append_mem hq S hS
  have h0 : 0 < (S ++ ['"']).length := by simp
  show expandLoop (m + 1 + 1) sh (S ++ ['"']) vars bt 0 [] [] = flushWord [] S
  rw [expandLoop]
  simp only [h0, if_true, hidx]
  have hdropS : (S ++ ['"']).drop (S.length + 0) = ['"'] := by
    simp
  have htakeS : ((S ++ ['"']).drop 0).take S.length = S := by
    simp
  have hdropEnd : (S ++ ['"']).drop (S.length + 0 + 1) = [] := by
    apply List.drop_eq_nil_of_le
    simp
  simp only [hdropS, htakeS, hdropEnd, decodeRune]
  norm_num
  rw [if_neg (by decide : ¬('"' : Char) = '\\'), expandDQ_nil]
  have hdrop2 : (S ++ ['"']).drop (S.length + 1) = [] := by
    apply List.drop_eq_nil_of_le; simp
  norm_num
  rw [expandLoop_clean (m + 1) sh vars bt (S.length + 1) [] S (by omega)
    (by simp [hdrop2])]
  simp [hdrop2]

theorem expandDQ_closes (fuel : Nat) (sh : ShOracle) (vars : Vars) (bt : Bool)
    {S : Str} (hf : 5 ≤ fuel) (hS : ∀ c ∈ S, c ∉ expandSpecials) :
    expandDoubleQuoted fuel sh (S ++ ['"']) vars bt = (S, S.length + 2) := by
  obtain ⟨f, rfl⟩ : ∃ f, fuel = f + 5 := ⟨fuel - 5, by omega⟩
  have hS2 : ∀ x ∈ S, x ∉ (['"', '\\'] : List Char) := by
    intro x hx hmem
    rcases List.mem_cons.mp hmem with h | h
    · exact (hS x hx) (by rw [h]; decide)
    · exact (hS x hx) (by rw [List.mem_singleton.mp h]; decide)
  have hidx : indexAny ['"', '\\'] ((S ++ ['"']).drop 0) = some S.length := by
    simpa using indexAny_append_mem (by decide) S hS2
  show expandDQLoop (f + 3 + 1) sh (S ++ ['"']) vars bt 0 = (S, S.length + 2)
  rw [expandDQLoop]
  simp only [hidx]
  have hdropS : (S ++ ['"']).drop S.length = ['"'] := by simp
  simp only [hdropS, decodeRune]
  rw [if_neg (by decide : ¬('"' : Char) = '\\')]
  norm_num
  have htake : (S ++ ['"']).take (S.length + 1) = S ++ ['"'] := by
    apply List.take_of_length_le; simp
  rw [htake, expandFuel_endquote (f + 3) sh vars bt (by omega) hS,
    joinSpace_flushWord_nil]

theorem expandSQ_closes {S : Str} (h : squote ∉ S) :
    expandSingleQuoted (S ++ [squote]) = (S, S.length + 1) := by
  unfold expandSingleQuoted
  rw [indexRune_append S h]
  simp

/-! Helper lemmas about valid variable names, the name scan, and the
namelist pattern. -/

theorem validNameAux_mem (v : Str) : ∀ (i : Nat), isValidVarNameAux i v = true →
    ∀ c ∈ v, (isalnum c || c == '_') = true := by
  induction v with
  | nil => intro i _ c hc; cases hc
  | cons x xs ih =>
    intro i h c hc
    rw [isValidVarNameAux] at h
    split at h
    · exact absurd h (by simp)
    · split at h
      · exact absurd h (by simp)
      · rcases List.mem_cons.mp hc with rfl | hmem
        · rename_i h1 h2
          cases hx : (isalnum c || c == '_') with
          | true => rfl
          | false => exact absurd (by simp [hx]) h2
        · exact ih (i + 1) h c hmem

theorem validName_head {c : Char} {rest : Str}
    (h : isValidVarName (c :: rest) = true) : (isalpha c || c == '_') = true := by
  rw [isValidVarName, isValidVarNameAux] at h
  split at h
  · exact absurd h (by simp)
  · rename_i h1
    cases hx : (isalpha c || c == '_') with
    | true => rfl
    | false => exact absurd (by simp [hx]) h1

theorem validName_not_mem {v : Str} (hv : isValidVarName v = true) {d : Char}
    (hd : (isalnum d || d == '_') = false) : d ∉ v := by
  intro hmem
  have h2 := validNameAux_mem v 0 hv d hmem
  rw [h2] at hd
  exact absurd hd (by simp)

theorem validChar_not_space {c : Char} (h : (isalnum c || c == '_') = true) :
    goIsSpace c = false := by
  by_contra hcon
  have h2 : goIsSpace c = true := by revert hcon; cases goIsSpace c <;> simp
  rw [goIsSpace] at h2
  simp only [Bool.or_eq_true, decide_eq_true_eq] at h2
  rcases h2 with (((h1 | h1) | h1) | h1) | h1 <;> subst h1 <;>
    exact absurd h (by decide)

theorem validChar_not_special {c : Char} (h : (isalnum c || c == '_') = true) :
    c ∉ expandSpecials := by
  intro hmem
  simp only [expandSpecials, List.mem_cons, List.mem_singleton,
    List.not_mem_nil, or_false] at hmem
  rcases hmem with h1 | h1 | h1 | h1 | h1 <;> subst h1 <;>
    exact absurd h (by decide)

theorem alphau_alnumu {c : Char} (h : (isalpha c || c == '_') = true) :
    (isalnum c || c == '_') = true := by
  rcases Bool.or_eq_true_iff.mp h with h1 | h1
  · simp [isalnum, h1]
  · simp [h1]

theorem wsRun_cons_false {c : Char} (h : goIsSpace c = false) (rest : Str) :
    wsRun (c :: rest) = 0 := by
  simp [wsRun, List.takeWhile_cons, h]

theorem wsRun_append_head {a : Str} {c : Char} {r : Str}
    (hc : goIsSpace c = false)
    (ha : ∀ x ∈ a.take 1, goIsSpace x = false) : wsRun (a ++ c :: r) = 0 := by
  cases a with
  | nil => simpa using wsRun_cons_false hc r
  | cons x xs =>
    simpa [List.cons_append] using wsRun_cons_false (ha x (by simp)) (xs ++ c :: r)

theorem drop_append_cons (l : Str) (c : Char) (r : Str) :
    (l ++ c :: r).drop (l.length + 1) = r := by
  induction l with
  | nil => simp
  | cons x xs ih => simp [ih]

theorem take_append_cons (l : Str) (c : Char) (r : Str) :
    (l ++ c :: r).take (l.length + 1) = l ++ [c] := by
  induction l with
  | nil => simp
  | cons x xs ih => simpa [List.cons_append] using ih

theorem bareNameLen_tail : ∀ (s : Str) (j : Nat), 0 < j →
    (∀ c ∈ s, (isalnum c || c == '_') = true) →
    ∀ {post : Str}, (∀ c ∈ post.take 1, (isalnum c || c == '_') = false) →
    bareNameLen j (s ++ post) = s.length := by
  intro s
  induction s with
  | nil =>
    intro j hj _ post hpost
    cases post with
    | nil => rfl
    | cons c r =>
      have hc := hpost c (by simp)
      have h1 : isalpha c = false := by
        revert hc; cases h2 : isalpha c <;> simp [isalnum, h2]
      have h2 : isdigit c = false := by
        revert hc; cases h3 : isdigit c <;> simp [isalnum, h3]
      have h3 : (c == '_') = false := by
        revert hc; cases h4 : c == '_' <;> simp [h4]
      simp [bareNameLen, h1, h2, h3]
  | cons x xs ih =>
    intro j hj hall post hpost
    rw [List.cons_append, bareNameLen]
    have hx := hall x (List.mem_cons_self x xs)
    have hj2 : decide (j > 0) = true := by simpa using hj
    have hcond : (isalpha x || x == '_' || (decide (j > 0) && isdigit x)) = true := by
      rcases Bool.or_eq_true_iff.mp hx with h1 | h1
      · rcases Bool.or_eq_true_iff.mp h1 with h2 | h2
        · simp [h2]
        · simp [hj2, h2]
      · simp [h1]
    rw [hcond]
    simp only [if_true]
    rw [ih (j + 1) (by omega) (fun c hc => hall c (List.mem_cons_of_mem x hc)) hpost]
    simp

theorem bareNameLen_name {name post : Str} (hvalid : isValidVarName name = true)
    (hne : name ≠ [])
    (hpost : ∀ c ∈ post.take 1, (isalnum c || c == '_') = false) :
    bareNameLen 0 (name ++ post) = name.length := by
  obtain ⟨c0, ns, rfl⟩ : ∃ c0 ns, name = c0 :: ns := by
    cases name with
    | nil => exact absurd rfl hne
    | cons c0 ns => exact ⟨c0, ns, rfl⟩
  rw [List.cons_append, bareNameLen]
  have hc0 := validName_head hvalid
  have hcond : (isalpha c0 || c0 == '_' || (decide ((0 : Nat) > 0) && isdigit c0)) = true := by
    rcases Bool.or_eq_true_iff.mp hc0 with h1 | h1
    · simp [h1]
    · simp [h1]
  rw [hcond]
  simp only [if_true]
  have hall : ∀ c ∈ ns, (isalnum c || c == '_') = true :=
    fun c hc => validNameAux_mem (c0 :: ns) 0 hvalid c (List.mem_cons_of_mem c0 hc)
  rw [bareNameLen_tail ns 1 (by omega) hall hpost]
  simp

theorem matchNamelist_validname {v : Str} (hv : isValidVarName v = true) :
    matchNamelist v = none := by
  have hc : ':' ∉ v := validName_not_mem hv (by decide)
  simp [matchNamelist, indexRune_eq_none hc]

/-- The namelist body in fully right-nested form. -/
theorem namelistForm_nested (nm a b c d : Str) :
    namelistForm nm a b c d =
      nm ++ ':' :: (a ++ '%' :: (b ++ '=' :: (c ++ '%' :: d))) := by
  simp [namelistForm]

theorem matchNamelist_canonical {nm a b c d : Str}
    (hvalid : isValidVarName nm = true) (hne : nm ≠ [])
    (ha : '%' ∉ a) (hb : '=' ∉ b) (hc : '%' ∉ c) (hd : '%' ∉ d)
    (haw : ∀ x ∈ a.take 1, goIsSpace x = false)
    (hcw : ∀ x ∈ c.take 1, goIsSpace x = false) :
    matchNamelist (namelistForm nm a b c d) = some (nm, a, b, c, d) := by
  obtain ⟨c0, ns, hnm⟩ : ∃ c0 ns, nm = c0 :: ns := by
    cases nm with
    | nil => exact absurd rfl hne
    | cons c0 ns => exact ⟨c0, ns, rfl⟩
  rw [namelistForm_nested]
  have hcolon : indexRune ':' (nm ++ ':' :: (a ++ '%' :: (b ++ '=' :: (c ++ '%' :: d)))) =
      some nm.length :=
    indexRune_append nm (validName_not_mem hvalid (by decide))
  have hk0 : ¬(nm.length = 0) := by
    have h2 := List.length_pos.mpr hne
    omega
  have hws : wsRun (nm ++ ':' :: (a ++ '%' :: (b ++ '=' :: (c ++ '%' :: d)))) = 0 := by
    subst hnm
    rw [List.cons_append]
    exact wsRun_cons_false (validChar_not_space (alphau_alnumu (validName_head hvalid))) _
  have htake1 : (nm ++ ':' :: (a ++ '%' :: (b ++ '=' :: (c ++ '%' :: d)))).take nm.length = nm :=
    List.take_left nm _
  have hdrop1 : (nm ++ ':' :: (a ++ '%' :: (b ++ '=' :: (c ++ '%' :: d)))).drop (nm.length + 1) =
      a ++ '%' :: (b ++ '=' :: (c ++ '%' :: d)) :=
    drop_append_cons nm ':' _
  have hm : indexRune '%' (a ++ '%' :: (b ++ '=' :: (c ++ '%' :: d))) = some a.length :=
    indexRune_append a ha
  have hwsa : wsRun (a ++ '%' :: (b ++ '=' :: (c ++ '%' :: d))) = 0 :=
    wsRun_append_head (by decide) haw
  have htakea : (a ++ '%' :: (b ++ '=' :: (c ++ '%' :: d))).take a.length = a :=
    List.take_left a _
  have hdropa : (a ++ '%' :: (b ++ '=' :: (c ++ '%' :: d))).drop (a.length + 1) =
      b ++ '=' :: (c ++ '%' :: d) :=
    drop_append_cons a '%' _
  have he : indexRune '=' (b ++ '=' :: (c ++ '%' :: d)) = some b.length :=
    indexRune_append b hb
  have htakeb : (b ++ '=' :: (c ++ '%' :: d)).take b.length = b :=
    List.take_left b _
  have hdropb : (b ++ '=' :: (c ++ '%' :: d)).drop (b.length + 1) = c ++ '%' :: d :=
    drop_append_cons b '=' _
  have hm2 : indexRune '%' (c ++ '%' :: d) = some c.length :=
    indexRune_append c hc
  have hwsc : wsRun (c ++ '%' :: d) = 0 := wsRun_append_head (by decide) hcw
  have htakec : (c ++ '%' :: d).take c.length = c := List.take_left c _
  have hdropc : (c ++ '%' :: d).drop (c.length + 1) = d := drop_append_cons c '%' _
  have hnod : indexRune '%' d = none := indexRune_eq_none hd
  simp only [matchNamelist, hcolon, hk0, if_false, hws, Nat.zero_min, Nat.sub_zero,
    List.drop_zero, htake1, hdrop1, hm, hwsa, htakea, hdropa, he, htakeb, hdropb,
    hm2, hwsc, htakec, hdropc, hnod]

/-! Helper lemmas about expandSigil. -/

theorem expandSigil_bare_undef (vars : Vars) {name post : Str}
    (hvalid : isValidVarName name = true) (hne : name ≠ [])
    (hlook : varsLookup vars name = none)
    (hpost : ∀ c ∈ post.take 1, (isalnum c || c == '_') = false) :
    expandSigil (name ++ post) vars = ([('$' :: name)], name.length) := by
  obtain ⟨c0, ns, rfl⟩ : ∃ c0 ns, name = c0 :: ns := by
    cases name with
    | nil => exact absurd rfl hne
    | cons c0 ns => exact ⟨c0, ns, rfl⟩
  have hc0 := validName_head hvalid
  have hd : c0 ≠ '$' := by
    intro h1; rw [h1] at hc0; exact absurd hc0 (by decide)
  have hbr : c0 ≠ '{' := by
    intro h1; rw [h1] at hc0; exact absurd hc0 (by decide)
  rw [List.cons_append]
  simp only [expandSigil]
  split
  · rename_i heq
    injection heq with h1 h2
    exact absurd h1 hd
  · rename_i heq
    injection heq with h1 h2
    exact absurd h1 hbr
  · rw [← List.cons_append, bareNameLen_name hvalid hne hpost]
    have hlen : 0 < (c0 :: ns).length := by simp
    rw [if_pos hlen]
    have htake : ((c0 :: ns) ++ post).take (c0 :: ns).length = c0 :: ns :=
      List.take_left _ _
    simp only [htake, hvalid, if_true, hlook]

theorem expandSigil_braced_undef (vars : Vars) {name post : Str}
    (hvalid : isValidVarName name = true)
    (hlook : varsLookup vars name = none) :
    expandSigil ('{' :: (name ++ '}' :: post)) vars =
      ([('$' :: '{' :: (name ++ ['}']))], name.length + 2) := by
  have hbr : '}' ∉ name := validName_not_mem hvalid (by decide)
  simp only [expandSigil]
  rw [indexRune_append name hbr]
  have htake : (name ++ '}' :: post).take name.length = name := List.take_left _ _
  simp only [htake, matchNamelist_validname hvalid, hvalid, if_true, hlook]
  have htake2 : ('{' :: (name ++ '}' :: post)).take (1 + name.length + 1) =
      '{' :: (name ++ ['}']) := by
    have h1 : 1 + name.length + 1 = name.length + 1 + 1 := by omega
    rw [h1, List.take_succ_cons, take_append_cons]
  rw [htake2]
  have h2 : 1 + name.length + 1 = name.length + 2 := by omega
  rw [h2]

theorem expandSigil_namelist (vars : Vars) {nm a b c d : Str}
    {vals : List Str} (post : Str)
    (hvalid : isValidVarName nm = true) (hne : nm ≠ [])
    (hlook : varsLookup vars nm = some vals)
    (ha : '%' ∉ a) (hb : '=' ∉ b) (hc : '%' ∉ c) (hd : '%' ∉ d)
    (haw : ∀ x ∈ a.take 1, goIsSpace x = false)
    (hcw : ∀ x ∈ c.take 1, goIsSpace x = false)
    (hbra : '}' ∉ a) (hbrb : '}' ∉ b) (hbrc : '}' ∉ c) (hbrd : '}' ∉ d) :
    expandSigil ('{' :: (namelistForm nm a b c d ++ '}' :: post)) vars =
      (vals.map (namelistSub a b c d), (namelistForm nm a b c d).length + 2) := by
  have hbr : '}' ∉ namelistForm nm a b c d := by
    have hbnm : '}' ∉ nm := validName_not_mem hvalid (by decide)
    rw [namelistForm_nested]
    simp only [List.mem_append, List.mem_cons]
    rintro (h1 | h1 | h1 | h1 | h1 | h1 | h1 | h1 | h1)
    · exact hbnm h1
    · exact absurd h1.symm (by decide)
    · exact hbra h1
    · exact absurd h1.symm (by decide)
    · exact hbrb h1
    · exact absurd h1.symm (by decide)
    · exact hbrc h1
    · exact absurd h1.symm (by decide)
    · exact hbrd h1
  simp only [expandSigil]
  rw [indexRune_append _ hbr]
  have htake : (namelistForm nm a b c d ++ '}' :: post).take
      (namelistForm nm a b c d).length = namelistForm nm a b c d :=
    List.take_left _ _
  simp only [htake,
    matchNamelist_canonical hvalid hne ha hb hc hd haw hcw, hvalid, if_true, hlook]
  have h2 : 1 + (namelistForm nm a b c d).length + 1 =
      (namelistForm nm a b c d).length + 2 := by omega
  rw [h2]

/-! Composition lemmas. -/

theorem expandLoop_flush (fuel : Nat) (sh : ShOracle) (vars : Vars) (bt : Bool)
    {input : Str} {i : Nat} (hf : 0 < fuel) (hi : input.length ≤ i)
    (parts : List Str) (expanded : Str) :
    expandLoop fuel sh input vars bt i parts expanded = flushWord parts expanded := by
  have h := expandLoop_clean fuel sh vars bt i parts expanded hf
    (by rw [List.drop_eq_nil_of_le hi]; simp)
  rw [h, List.drop_eq_nil_of_le hi, List.append_nil]

theorem sigilCompose_flush (op : List Str)
    (h : ∀ l, op.getLast? = some l → l ≠ []) :
    flushWord (sigilCompose [] [] op).1 (sigilCompose [] [] op).2 = op := by
  match op with
  | [] => rfl
  | [x] =>
    have hx : x ≠ [] := h x (by simp)
    simp [sigilCompose, flushWord, List.isEmpty_iff, hx]
  | x :: y :: rest =>
    have hlq : (x :: y :: rest).getLast? = some ((y :: rest).getLast (by simp)) := by
      rw [List.getLast?_cons_cons]
      exact List.getLast?_eq_getLast (y :: rest) (by simp)
    have hmain : (y :: rest).getLast (by simp) ≠ [] := h _ hlq
    have hflush : flushWord (sigilCompose [] [] (x :: y :: rest)).1
        (sigilCompose [] [] (x :: y :: rest)).2 =
        (sigilCompose [] [] (x :: y :: rest)).1 ++
          [(sigilCompose [] [] (x :: y :: rest)).2] := by
      rw [flushWord, if_neg]
      simp only [sigilCompose]
      simpa [List.isEmpty_iff] using hmain
    rw [hflush]
    simp only [sigilCompose, List.nil_append, List.cons_append]
    rw [List.dropLast_append_getLast (by simp : (y :: rest) ≠ [])]

/-- C3: for every valid variable name NAME not bound in the variable
table, word expansion leaves the bare reference (dollar NAME) and the
braced reference (dollar brace NAME brace) as literal text in the output
word, and continues expanding the rest of the input normally: with clean
text around the reference, the whole input comes back as one unchanged
word.  The text after a bare reference must not start with a name
character (otherwise it would be part of the name). -/
theorem c3_undefined_variable_literal (sh : ShOracle) (vars : Vars) (bt : Bool)
    {pre name post : Str}
    (hvalid : isValidVarName name = true) (hne : name ≠ [])
    (hlook : varsLookup vars name = none)
    (hpre : ∀ c ∈ pre, c ∉ expandSpecials)
    (hpost : ∀ c ∈ post, c ∉ expandSpecials)
    (hhead : ∀ c ∈ post.take 1, (isalnum c || c == '_') = false) :
    expand sh (pre ++ '$' :: (name ++ post)) vars bt =
      [pre ++ '$' :: (name ++ post)] ∧
    expand sh (pre ++ '$' :: '{' :: (name ++ '}' :: post)) vars bt =
      [pre ++ '$' :: '{' :: (name ++ '}' :: post)] := by
  constructor
  · have e1 : expand sh (pre ++ '$' :: (name ++ post)) vars bt =
        expandLoop (2 * (pre ++ '$' :: (name ++ post)).length + 15) sh
          (pre ++ '$' :: (name ++ post)) vars bt 0 [] [] := rfl
    rw [e1, expandLoop_step_dollar _ sh vars bt pre (name ++ post) (by omega)
      (by simp) hpre [] []]
    have hd1 : (pre ++ '$' :: (name ++ post)).drop (pre.length + 0 + 1) =
        name ++ post := by
      have h2 := drop_append_cons pre '$' (name ++ post)
      simp only [Nat.add_zero]
      exact h2
    rw [hd1, expandSigil_bare_undef vars hvalid hne hlook hhead]
    have hd2 : (pre ++ '$' :: (name ++ post)).drop
        (pre.length + 0 + 1 + (([('$' :: name)], name.length) :
          List Str × Nat).2) = post := by
      show (pre ++ '$' :: (name ++ post)).drop (pre.length + 0 + 1 + name.length) = post
      have h2 : pre.length + 0 + 1 + name.length = (pre.length + 1) + name.length := by
        omega
      rw [h2, ← List.drop_drop, drop_append_cons pre '$' (name ++ post),
        List.drop_left]
    rw [expandLoop_clean _ sh vars bt _ _ _ (by omega)
      (by rw [hd2]; exact hpost)]
    rw [hd2]
    show flushWord (sigilCompose [] ([] ++ pre) [('$' :: name)]).1
      ((sigilCompose [] ([] ++ pre) [('$' :: name)]).2 ++ post) = _
    simp only [sigilCompose, List.nil_append]
    rw [flushWord_nil_of_ne (by simp)]
    simp
  · have e1 : expand sh (pre ++ '$' :: '{' :: (name ++ '}' :: post)) vars bt =
        expandLoop (2 * (pre ++ '$' :: '{' :: (name ++ '}' :: post)).length + 15)
          sh (pre ++ '$' :: '{' :: (name ++ '}' :: post)) vars bt 0 [] [] := rfl
    rw [e1, expandLoop_step_dollar _ sh vars bt pre ('{' :: (name ++ '}' :: post))
      (by omega) (by simp) hpre [] []]
    have hd1 : (pre ++ '$' :: '{' :: (name ++ '}' :: post)).drop
        (pre.length + 0 + 1) = '{' :: (name ++ '}' :: post) := by
      have h2 := drop_append_cons pre '$' ('{' :: (name ++ '}' :: post))
      simp only [Nat.add_zero]
      exact h2
    rw [hd1, expandSigil_braced_undef vars hvalid hlook]
    have hd2 : (pre ++ '$' :: '{' :: (name ++ '}' :: post)).drop
        (pre.length + 0 + 1 + (([('$' :: '{' :: (name ++ ['}']))],
          name.length + 2) : List Str × Nat).2) = post := by
      show (pre ++ '$' :: '{' :: (name ++ '}' :: post)).drop
        (pre.length + 0 + 1 + (name.length + 2)) = post
      have h2 : pre.length + 0 + 1 + (name.length + 2) =
          (pre.length + 1) + (name.length + 1 + 1) := by omega
      rw [h2, ← List.drop_drop, drop_append_cons pre '$' _]
      rw [List.drop_succ_cons]
      exact drop_append_cons name '}' post
    rw [expandLoop_clean _ sh vars bt _ _ _ (by omega)
      (by rw [hd2]; exact hpost)]
    rw [hd2]
    show flushWord (sigilCompose [] ([] ++ pre) [('$' :: '{' :: (name ++ ['}']))]).1
      ((sigilCompose [] ([] ++ pre) [('$' :: '{' :: (name ++ ['}']))]).2 ++ post) = _
    simp only [sigilCompose, List.nil_append]
    rw [flushWord_nil_of_ne (by simp)]
    simp

/-- C3 witness: the claim theorem applied at pre = x, NAME = FOO,
post = -y with an empty variable table. -/
theorem c3_undefined_variable_witness :
    expand shNone ("x".toList ++ '$' :: ("FOO".toList ++ "-y".toList)) [] false =
      ["x".toList ++ '$' :: ("FOO".toList ++ "-y".toList)] ∧
    expand shNone ("x".toList ++ '$' :: '{' :: ("FOO".toList ++ '}' :: "-y".toList))
      [] false =
      ["x".toList ++ '$' :: '{' :: ("FOO".toList ++ '}' :: "-y".toList)] :=
  c3_undefined_variable_literal shNone [] false (by decide) (by decide) rfl
    (by decide) (by decide) (by decide)

/-- C1 counterexample: the claim quantifies over all strings a, b, c, d,
but the namelist pattern cannot represent an arbitrary decomposition.
With a containing a percent (a = a percent, b = b, c = c, d = d, so the
braced body reads V colon a percent percent b equals c percent d), the
fixed pattern parses the body as a = a, b = percent b instead, so the
value aq percent b, which the claim leaves unchanged (second conjunct),
is rewritten to cqd by the code (first conjunct). -/
theorem c1_namelist_counterexample :
    expand shNone
      ('$' :: '{' :: (namelistForm "V".toList "a%".toList "b".toList
        "c".toList "d".toList ++ ['}']))
      [("V".toList, ["aq%b".toList])] false = ["cqd".toList] ∧
    List.map (namelistSub "a%".toList "b".toList "c".toList "d".toList)
      ["aq%b".toList] = ["aq%b".toList] ∧
    (["cqd".toList] : List Str) ≠ ["aq%b".toList] :=
  ⟨by decide, by decide, by decide⟩

/-- C1 amended: for every variable NAME bound in the table to vals and
strings a, b, c, d such that a, c and d contain no percent, b contains no
equals sign, a and b contain no backslash-E pair (inside such a or b the
quoting of the value pattern ends early and the compiler aborts the
process on the stray escape or compiles a different pattern, so the
program does not reach the substitution at all), a and c do not start
with pattern whitespace, none of them contains a closing brace, and the
mapped list does not end with an empty string, word expansion of the
braced namelist form yields exactly the elementwise substitution: values
of the shape a X b with no newline inside X become c X d and all others
pass through. -/
theorem c1_namelist_amended (sh : ShOracle) (vars : Vars) (bt : Bool)
    {nm a b c d : Str} {vals : List Str}
    (hvalid : isValidVarName nm = true) (hne : nm ≠ [])
    (hlook : varsLookup vars nm = some vals)
    (ha : '%' ∉ a) (hb : '=' ∉ b) (hc : '%' ∉ c) (hd : '%' ∉ d)
    (_hqa : hasQuoteE a = false) (_hqb : hasQuoteE b = false)
    (haw : ∀ x ∈ a.take 1, goIsSpace x = false)
    (hcw : ∀ x ∈ c.take 1, goIsSpace x = false)
    (hbra : '}' ∉ a) (hbrb : '}' ∉ b) (hbrc : '}' ∉ c) (hbrd : '}' ∉ d)
    (hlast : ∀ l, (vals.map (namelistSub a b c d)).getLast? = some l → l ≠ []) :
    expand sh ('$' :: '{' :: (namelistForm nm a b c d ++ ['}'])) vars bt =
      vals.map (namelistSub a b c d) := by
  have e1 : expand sh ('$' :: '{' :: (namelistForm nm a b c d ++ ['}'])) vars bt =
      expandLoop (2 * ('$' :: '{' :: (namelistForm nm a b c d ++ ['}'])).length + 15)
        sh ('$' :: '{' :: (namelistForm nm a b c d ++ ['}'])) vars bt 0 [] [] := rfl
  rw [e1, expandLoop_step_dollar _ sh vars bt []
    ('{' :: (namelistForm nm a b c d ++ ['}'])) (by omega)
    (by simp) (by simp) [] []]
  have hd1 : ('$' :: '{' :: (namelistForm nm a b c d ++ ['}'])).drop
      (List.length ([] : Str) + 0 + 1) =
      '{' :: (namelistForm nm a b c d ++ '}' :: []) := by
    simp
  rw [hd1, expandSigil_namelist vars [] hvalid hne hlook ha hb hc hd haw hcw
    hbra hbrb hbrc hbrd]
  rw [expandLoop_flush _ sh vars bt (by omega) (by simp; omega) _ _]
  show flushWord (sigilCompose [] ([] ++ []) (vals.map (namelistSub a b c d))).1
    (sigilCompose [] ([] ++ []) (vals.map (namelistSub a b c d))).2 =
      vals.map (namelistSub a b c d)
  rw [show (([] : Str) ++ []) = ([] : Str) from rfl]
  exact sigilCompose_flush _ hlast

/-- C1 witness: the amended statement applied at NAME = V bound to the
single value axb with a, b, c, d single letters: axb matches a X b with
X = x and becomes cxd. -/
theorem c1_namelist_witness :
    expand shNone
      ('$' :: '{' :: (namelistForm "V".toList "a".toList "b".toList
        "c".toList "d".toList ++ ['}']))
      [("V".toList, ["axb".toList])] false = ["cxd".toList] := by
  have h : expand shNone
      ('$' :: '{' :: (namelistForm "V".toList "a".toList "b".toList
        "c".toList "d".toList ++ ['}']))
      [("V".toList, ["axb".toList])] false =
      List.map (namelistSub "a".toList "b".toList "c".toList "d".toList)
        ["axb".toList] :=
    c1_namelist_amended shNone [("V".toList, ["axb".toList])] false
      (by decide) (by decide) rfl (by decide) (by decide) (by decide) (by decide)
      (by decide) (by decide)
      (by decide) (by decide) (by decide) (by decide) (by decide) (by decide)
      (by
        intro l hl
        have h2 : (List.map (namelistSub "a".toList "b".toList "c".toList
            "d".toList) ["axb".toList]).getLast? = some ("cxd".toList) := by decide
        rw [h2] at hl
        injection hl with h3
        rw [← h3]
        decide)
  rw [h]
  decide

/-- C5 counterexample: the claim quantifies over every string S free of
special characters, including the empty string, and asserts the common
result is the one-element list holding S; but expanding the empty word, an
empty double-quoted word or an empty single-quoted word all produce the
empty word list, not a list holding one empty word. -/
theorem c5_quote_transparency_counterexample :
    expand shNone [] [] false = [] ∧
    expand shNone ('"' :: [] ++ ['"']) [] false = [] ∧
    expand shNone (squote :: [] ++ [squote]) [] false = [] ∧
    ([] : List Str) ≠ [([] : Str)] := by
  refine ⟨by decide, by decide, by decide, by decide⟩

/-- C5 amended: for every nonempty string S containing none of the special
characters recognized by word expansion (double quote, single quote,
backtick, dollar, backslash) and no whitespace, the bare, double-quoted
and single-quoted forms of S all word-expand to the one-element list
holding S. -/
theorem c5_quote_transparency_amended (sh : ShOracle) (vars : Vars) (bt : Bool)
    {S : Str} (hne : S ≠ [])
    (hS : ∀ c ∈ S, c ∉ expandSpecials ∧ goIsSpace c = false) :
    expand sh S vars bt = [S] ∧
    expand sh ('"' :: S ++ ['"']) vars bt = [S] ∧
    expand sh (squote :: S ++ [squote]) vars bt = [S] := by
  have hS1 : ∀ c ∈ S, c ∉ expandSpecials := fun c hc => (hS c hc).1
  refine ⟨?_, ?_, ?_⟩
  · have e1 : expand sh S vars bt =
        expandLoop (2 * S.length + 15) sh S vars bt 0 [] [] := rfl
    rw [e1, expandLoop_clean _ sh vars bt 0 [] [] (by omega) (by simpa using hS1)]
    simp [flushWord_nil_of_ne hne]
  · have e1 : expand sh ('"' :: S ++ ['"']) vars bt =
        expandLoop (2 * ('"' :: S ++ ['"']).length + 15) sh
          ('"' :: S ++ ['"']) vars bt 0 [] [] := rfl
    rw [e1, expandLoop_step_dq _ sh vars bt [] (S ++ ['"']) (by omega)
      (by simp) (by simp) [] []]
    simp only [List.cons_append, List.length_nil, Nat.zero_add, Nat.add_zero,
      List.drop_succ_cons, List.drop_one, List.tail_cons, List.drop_zero,
      List.append_nil, List.nil_append]
    rw [expandDQ_closes _ sh vars bt (by omega) hS1]
    have hdrop2 : List.drop (1 + (S.length + 2)) ('"' :: (S ++ ['"'])) = [] := by
      apply List.drop_eq_nil_of_le; simp
    rw [expandLoop_clean _ sh vars bt _ [] _ (by omega) (by simp [hdrop2])]
    simp [hdrop2, flushWord_nil_of_ne hne]
  · have e1 : expand sh (squote :: S ++ [squote]) vars bt =
        expandLoop (2 * (squote :: S ++ [squote]).length + 15) sh
          (squote :: S ++ [squote]) vars bt 0 [] [] := rfl
    rw [e1, expandLoop_step_sq _ sh vars bt [] (S ++ [squote]) (by omega)
      (by simp) (by simp) [] []]
    simp only [List.cons_append, List.length_nil, Nat.zero_add, Nat.add_zero,
      List.drop_succ_cons, List.drop_one, List.tail_cons, List.drop_zero,
      List.append_nil, List.nil_append]
    have hsq : squote ∉ S := fun hmem => (hS1 squote hmem) (by decide)
    rw [expandSQ_closes hsq]
    have hdrop2 : List.drop (1 + (S.length + 1)) (squote :: (S ++ [squote])) = [] := by
      apply List.drop_eq_nil_of_le; simp; omega
    rw [expandLoop_clean _ sh vars bt _ [] _ (by omega) (by simp [hdrop2])]
    simp [hdrop2, flushWord_nil_of_ne hne]

/-- C5 witness: the amended statement applied at the concrete string ab. -/
theorem c5_quote_transparency_witness :
    ("ab".toList ≠ ([] : Str)) ∧
    expand shNone "\"ab\"".toList [] true = ["ab".toList] := by
  refine ⟨by decide, ?_⟩
  have h := c5_quote_transparency_amended shNone [] true
    (S := "ab".toList) (by decide) (by decide)
  exact h.2.1

/-- C6: parseAttribs agrees with the claim transcription attribsClaim on
every attribute word list and starting state: scanning words left to
right, each recognized letter sets exactly its flag, the first character
outside the recognized set is an error unless it is P or S, and P or S
stores the remainder of its word plus all following words as the
comparator or shell argv and stops successfully, so no character after a
P or S can cause an error. -/
theorem c6_parse_attribs_equiv (ws : List Str) (a : AttribSet)
    (cmd sh : List Str) : parseAttribs a cmd sh ws = attribsClaim a cmd sh ws := by
  rw [parseAttribs]
  induction ws generalizing a with
  | nil => simp [paGo, attribsClaim]
  | cons w rest ihw =>
    have hw0 : paGo a cmd sh [] (w :: rest) = paGo a cmd sh w rest := by
      simp [paGo]
    rw [hw0]
    clear hw0
    induction w generalizing a with
    | nil =>
      have h1 : paGo a cmd sh [] rest = attribsClaim a cmd sh rest := ihw a
      have h2 : attribsClaim a cmd sh ([] :: rest) = attribsClaim a cmd sh rest := by
        simp [attribsClaim]
      rw [h1, h2]
    | cons c cs ihc =>
      by_cases hc : c ∈ attribLetters
      · have hdec : decide (c ∈ attribLetters) = true := decide_eq_true hc
        have hstep : paGo a cmd sh (c :: cs) rest =
            paGo (flagOf c a) cmd sh cs rest := by
          rcases (show c = 'D' ∨ c = 'E' ∨ c = 'N' ∨ c = 'n' ∨ c = 'Q' ∨
              c = 'R' ∨ c = 'U' ∨ c = 'V' ∨ c = 'X' by
            simpa [attribLetters] using hc) with
            rfl | rfl | rfl | rfl | rfl | rfl | rfl | rfl | rfl <;>
            simp [paGo, flagOf]
        have hclaim : attribsClaim a cmd sh ((c :: cs) :: rest) =
            attribsClaim (flagOf c a) cmd sh (cs :: rest) := by
          simp only [attribsClaim, List.takeWhile_cons, List.dropWhile_cons,
            hdec, if_true, List.foldl_cons]
        rw [hstep, hclaim]
        exact ihc (flagOf c a)
      · have hdec : decide (c ∈ attribLetters) = false := decide_eq_false hc
        by_cases hP : c = 'P'
        · subst hP
          have h1 : paGo a cmd sh ('P' :: cs) rest =
              ⟨a, cmd ++ (if cs.isEmpty then [] else [cs]) ++ rest, sh, none⟩ := by
            simp [paGo]
          rw [h1]
          simp [attribsClaim, attribLetters, List.isEmpty_iff, List.append_assoc]
        · by_cases hS : c = 'S'
          · subst hS
            have h1 : paGo a cmd sh ('S' :: cs) rest =
                ⟨a, cmd, sh ++ (if cs.isEmpty then [] else [cs]) ++ rest, none⟩ := by
              simp [paGo]
            rw [h1]
            simp [attribsClaim, attribLetters, List.isEmpty_iff, List.append_assoc]
          · have h1 : paGo a cmd sh (c :: cs) rest = ⟨a, cmd, sh, some c⟩ := by
              rw [paGo.eq_def]
              split <;> simp_all [attribLetters]
            have h2 : attribsClaim a cmd sh ((c :: cs) :: rest) =
                ⟨a, cmd, sh, some c⟩ := by
              simp only [attribsClaim, List.takeWhile_cons, List.dropWhile_cons,
                hdec, Bool.false_eq_true, if_false, List.foldl_nil]
            rw [h1, h2]

/-! C7: the cycle check. -/

theorem reaches_trans {g : Nat → List GEdge} {a b c : Nat}
    (h1 : Reaches g a b) (h2 : Reaches g b c) : Reaches g a c := by
  induction h1 with
  | refl => exact h2
  | step he _ ih => exact Reaches.step he (ih h2)

theorem reaches_snoc {g : Nat → List GEdge} {a b c : Nat}
    (h1 : Reaches g a b) (he : hasEdge g b c) : Reaches g a c :=
  reaches_trans h1 (Reaches.step he (Reaches.refl c))

theorem rank_le_of_reaches {g : Nat → List GEdge} {root : Nat}
    {rank : Nat → Nat} (H : RankedFrom g root rank) {u w : Nat}
    (huw : Reaches g u w) : Reaches g root u → rank w ≤ rank u := by
  induction huw with
  | refl => exact fun _ => le_refl _
  | step he hvw ih =>
    intro hru
    obtain ⟨e, heg, hev⟩ := he
    exact le_trans (ih (reaches_snoc hru ⟨e, heg, hev⟩))
      (le_of_lt (H _ hru e heg _ hev))

theorem cyclecheck_acyclic_ok {g : Nat → List GEdge} {root : Nat}
    {rank : Nat → Nat} (H : RankedFrom g root rank) :
    ∀ (fuel u : Nat) (flags : Nat → Bool), Reaches g root u → rank u < fuel →
      (∀ w, Reaches g u w → flags w = false) →
      cyclecheckNode g fuel u flags = .ok flags := by
  intro fuel
  induction fuel with
  | zero => intro u flags _ h; omega
  | succ f ih =>
    intro u flags hru hrank hfl
    have hfu : flags u = false := hfl u (Reaches.refl u)
    have inner : ∀ es, (∀ e ∈ es, e ∈ g u) →
        cyclecheckEdges g f es (setFlag flags u true) =
          .ok (setFlag flags u true) := by
      intro es
      induction es with
      | nil => intro _; rw [cyclecheckEdges]
      | cons e es ihe =>
        intro hsub
        have heu : e ∈ g u := hsub e (List.mem_cons_self e es)
        rw [cyclecheckEdges]
        cases hev : e.v with
        | none =>
          exact ihe (fun x hx => hsub x (List.mem_cons_of_mem e hx))
        | some v =>
          have hedge : hasEdge g u v := ⟨e, heu, hev⟩
          have hrv : Reaches g root v := reaches_snoc hru hedge
          have hvu : rank v < rank u := H u hru e heu v hev
          have hflv : ∀ w, Reaches g v w → setFlag flags u true w = false := by
            intro w hvw
            have hwv : rank w ≤ rank v := rank_le_of_reaches H hvw hrv
            have hne : w ≠ u := by
              intro hwu; subst hwu; omega
            rw [setFlag, if_neg hne]
            exact hfl w (Reaches.step hedge hvw)
          show (match cyclecheckNode g f v (setFlag flags u true) with
              | CycleResult.ok fl2 => cyclecheckEdges g f es fl2
              | r => r) = CycleResult.ok (setFlag flags u true)
          rw [ih v (setFlag flags u true) hrv (by omega) hflv]
          exact ihe (fun x hx => hsub x (List.mem_cons_of_mem e hx))
    rw [cyclecheckNode, hfu]
    simp only [Bool.false_and, Bool.false_eq_true, if_false]
    rw [inner (g u) (fun e he => he)]
    show CycleResult.ok (setFlag (setFlag flags u true) u false) =
      CycleResult.ok flags
    congr 1
    funext n
    by_cases hn : n = u
    · subst hn; simp [setFlag, hfu]
    · simp [setFlag, hn]

theorem ccNode_zero (g : Nat → List GEdge) (u : Nat) (flags : Nat → Bool) :
    cyclecheckNode g 0 u flags = .fuelOut := by
  rw [cyclecheckNode]

theorem ccNode_cycle {g : Nat → List GEdge} {f u : Nat} {flags : Nat → Bool}
    (hc : (flags u && !(g u).isEmpty) = true) :
    cyclecheckNode g (f + 1) u flags = .cycleAt u := by
  rw [cyclecheckNode, if_pos hc]

theorem ccNode_succ {g : Nat → List GEdge} {f u : Nat} {flags : Nat → Bool}
    (hc : (flags u && !(g u).isEmpty) = false) :
    cyclecheckNode g (f + 1) u flags =
      match cyclecheckEdges g f (g u) (setFlag flags u true) with
      | CycleResult.ok fl2 => CycleResult.ok (setFlag fl2 u false)
      | r => r := by
  rw [cyclecheckNode, if_neg (by simp [hc])]

theorem ccNode_succ_ok {g : Nat → List GEdge} {f u : Nat}
    {flags fl2 : Nat → Bool}
    (hc : (flags u && !(g u).isEmpty) = false)
    (he : cyclecheckEdges g f (g u) (setFlag flags u true) = .ok fl2) :
    cyclecheckNode g (f + 1) u flags = .ok (setFlag fl2 u false) := by
  rw [ccNode_succ hc, he]

theorem ccNode_succ_err {g : Nat → List GEdge} {f u : Nat}
    {flags : Nat → Bool} {r : CycleResult}
    (hc : (flags u && !(g u).isEmpty) = false)
    (he : cyclecheckEdges g f (g u) (setFlag flags u true) = r)
    (hr : ∀ fl2, r ≠ CycleResult.ok fl2) :
    cyclecheckNode g (f + 1) u flags = r := by
  rw [ccNode_succ hc, he]
  cases r with
  | ok fl2 => exact absurd rfl (hr fl2)
  | cycleAt w => rfl
  | fuelOut => rfl

theorem ccEdges_nil (g : Nat → List GEdge) (fuel : Nat) (flags : Nat → Bool) :
    cyclecheckEdges g fuel [] flags = .ok flags := by
  rw [cyclecheckEdges]

theorem ccEdges_cons_none {g : Nat → List GEdge} {fuel : Nat} {e : GEdge}
    {es : List GEdge} {flags : Nat → Bool} (hev : e.v = none) :
    cyclecheckEdges g fuel (e :: es) flags = cyclecheckEdges g fuel es flags := by
  rw [cyclecheckEdges, hev]

theorem ccEdges_cons {g : Nat → List GEdge} {fuel : Nat} {e : GEdge}
    {es : List GEdge} {flags : Nat → Bool} {v : Nat} (hev : e.v = some v) :
    cyclecheckEdges g fuel (e :: es) flags =
      match cyclecheckNode g fuel v flags with
      | CycleResult.ok fl2 => cyclecheckEdges g fuel es fl2
      | r => r := by
  rw [cyclecheckEdges, hev]

theorem ccEdges_cons_ok {g : Nat → List GEdge} {fuel : Nat} {e : GEdge}
    {es : List GEdge} {flags fl2 : Nat → Bool} {v : Nat} (hev : e.v = some v)
    (hn : cyclecheckNode g fuel v flags = .ok fl2) :
    cyclecheckEdges g fuel (e :: es) flags = cyclecheckEdges g fuel es fl2 := by
  rw [ccEdges_cons hev, hn]

theorem ccEdges_cons_err {g : Nat → List GEdge} {fuel : Nat} {e : GEdge}
    {es : List GEdge} {flags : Nat → Bool} {v : Nat} {r : CycleResult}
    (hev : e.v = some v) (hn : cyclecheckNode g fuel v flags = r)
    (hr : ∀ fl2, r ≠ CycleResult.ok fl2) :
    cyclecheckEdges g fuel (e :: es) flags = r := by
  rw [ccEdges_cons hev, hn]
  cases r with
  | ok fl2 => exact absurd rfl (hr fl2)
  | cycleAt w => rfl
  | fuelOut => rfl

theorem cyclecheckEdges_ok_mono {g : Nat → List GEdge} {fuel : Nat}
    (hnode : ∀ u flags fl, cyclecheckNode g fuel u flags = .ok fl →
      ∀ x, fl x = true → flags x = true) :
    ∀ es flags fl, cyclecheckEdges g fuel es flags = .ok fl →
      ∀ x, fl x = true → flags x = true := by
  intro es
  induction es with
  | nil =>
    intro flags fl h x hx
    rw [ccEdges_nil] at h
    cases h
    exact hx
  | cons e es ihe =>
    intro flags fl h x hx
    cases hev : e.v with
    | none =>
      rw [ccEdges_cons_none hev] at h
      exact ihe flags fl h x hx
    | some v =>
      cases hn : cyclecheckNode g fuel v flags with
      | ok fl2 =>
        rw [ccEdges_cons_ok hev hn] at h
        exact hnode v flags fl2 hn x (ihe fl2 fl h x hx)
      | cycleAt w =>
        rw [ccEdges_cons_err hev hn (fun fl2 h2 => CycleResult.noConfusion h2)]
          at h
        exact CycleResult.noConfusion h
      | fuelOut =>
        rw [ccEdges_cons_err hev hn (fun fl2 h2 => CycleResult.noConfusion h2)]
          at h
        exact CycleResult.noConfusion h

theorem cyclecheckNode_ok_mono {g : Nat → List GEdge} :
    ∀ fuel u flags fl, cyclecheckNode g fuel u flags = .ok fl →
      ∀ x, fl x = true → flags x = true := by
  intro fuel
  induction fuel with
  | zero =>
    intro u flags fl h
    rw [ccNode_zero] at h
    exact CycleResult.noConfusion h
  | succ f ih =>
    intro u flags fl h x hx
    cases hc : (flags u && !(g u).isEmpty) with
    | true =>
      rw [ccNode_cycle hc] at h
      exact CycleResult.noConfusion h
    | false =>
      cases he : cyclecheckEdges g f (g u) (setFlag flags u true) with
      | ok fl2 =>
        rw [ccNode_succ_ok hc he] at h
        cases h
        by_cases hxu : x = u
        · subst hxu; rw [setFlag, if_pos rfl] at hx; cases hx
        · rw [setFlag, if_neg hxu] at hx
          have h3 := cyclecheckEdges_ok_mono ih _ _ _ he x hx
          rw [setFlag, if_neg hxu] at h3
          exact h3
      | cycleAt w =>
        rw [ccNode_succ_err hc he (fun fl2 h2 => CycleResult.noConfusion h2)]
          at h
        exact CycleResult.noConfusion h
      | fuelOut =>
        rw [ccNode_succ_err hc he (fun fl2 h2 => CycleResult.noConfusion h2)]
          at h
        exact CycleResult.noConfusion h

theorem cyclecheckEdges_ok_frame {g : Nat → List GEdge} {fuel : Nat}
    (hnode : ∀ u flags fl, cyclecheckNode g fuel u flags = .ok fl →
      ∀ x, g x ≠ [] → fl x = flags x) :
    ∀ es flags fl, cyclecheckEdges g fuel es flags = .ok fl →
      ∀ x, g x ≠ [] → fl x = flags x := by
  intro es
  induction es with
  | nil =>
    intro flags fl h x _
    rw [ccEdges_nil] at h
    cases h
    rfl
  | cons e es ihe =>
    intro flags fl h x hgx
    cases hev : e.v with
    | none =>
      rw [ccEdges_cons_none hev] at h
      exact ihe flags fl h x hgx
    | some v =>
      cases hn : cyclecheckNode g fuel v flags with
      | ok fl2 =>
        rw [ccEdges_cons_ok hev hn] at h
        rw [ihe fl2 fl h x hgx, hnode v flags fl2 hn x hgx]
      | cycleAt w =>
        rw [ccEdges_cons_err hev hn (fun fl2 h2 => CycleResult.noConfusion h2)]
          at h
        exact CycleResult.noConfusion h
      | fuelOut =>
        rw [ccEdges_cons_err hev hn (fun fl2 h2 => CycleResult.noConfusion h2)]
          at h
        exact CycleResult.noConfusion h

theorem cyclecheckNode_ok_frame {g : Nat → List GEdge} :
    ∀ fuel u flags fl, cyclecheckNode g fuel u flags = .ok fl →
      ∀ x, g x ≠ [] → fl x = flags x := by
  intro fuel
  induction fuel with
  | zero =>
    intro u flags fl h
    rw [ccNode_zero] at h
    exact CycleResult.noConfusion h
  | succ f ih =>
    intro u flags fl h x hgx
    cases hc : (flags u && !(g u).isEmpty) with
    | true =>
      rw [ccNode_cycle hc] at h
      exact CycleResult.noConfusion h
    | false =>
      cases he : cyclecheckEdges g f (g u) (setFlag flags u true) with
      | ok fl2 =>
        rw [ccNode_succ_ok hc he] at h
        cases h
        by_cases hxu : x = u
        · subst hxu
          rw [setFlag, if_pos rfl]
          have hne : (g x).isEmpty = false := by
            cases hgl : g x with
            | nil => exact absurd hgl hgx
            | cons a l => rfl
          cases hfx : flags x with
          | false => rfl
          | true => rw [hfx, hne] at hc; cases hc
        · rw [setFlag, if_neg hxu]
          rw [cyclecheckEdges_ok_frame ih _ _ _ he x hgx, setFlag, if_neg hxu]
      | cycleAt w =>
        rw [ccNode_succ_err hc he (fun fl2 h2 => CycleResult.noConfusion h2)]
          at h
        exact CycleResult.noConfusion h
      | fuelOut =>
        rw [ccNode_succ_err hc he (fun fl2 h2 => CycleResult.noConfusion h2)]
          at h
        exact CycleResult.noConfusion h

theorem cyclecheckEdges_cycle_sound {g : Nat → List GEdge} {root : Nat}
    {fuel : Nat}
    (hnode : ∀ u flags w, Reaches g root u →
      (∀ x, flags x = true → Reaches g root x ∧ ReachesPlus g x u) →
      cyclecheckNode g fuel u flags = .cycleAt w →
      Reaches g root w ∧ ReachesPlus g w w ∧ g w ≠ []) :
    ∀ es (u : Nat) flags w, (∀ e ∈ es, e ∈ g u) → Reaches g root u →
      (∀ x, flags x = true → Reaches g root x ∧ (x = u ∨ ReachesPlus g x u)) →
      cyclecheckEdges g fuel es flags = .cycleAt w →
      Reaches g root w ∧ ReachesPlus g w w ∧ g w ≠ [] := by
  intro es
  induction es with
  | nil =>
    intro u flags w _ _ _ h
    rw [ccEdges_nil] at h
    exact CycleResult.noConfusion h
  | cons e es ihe =>
    intro u flags w hsub hru hinv h
    have heu : e ∈ g u := hsub e (List.mem_cons_self e es)
    cases hev : e.v with
    | none =>
      rw [ccEdges_cons_none hev] at h
      exact ihe u flags w (fun x hx => hsub x (List.mem_cons_of_mem e hx))
        hru hinv h
    | some v =>
      have hedge : hasEdge g u v := ⟨e, heu, hev⟩
      cases hn : cyclecheckNode g fuel v flags with
      | ok fl2 =>
        rw [ccEdges_cons_ok hev hn] at h
        have hinv2 : ∀ x, fl2 x = true →
            Reaches g root x ∧ (x = u ∨ ReachesPlus g x u) :=
          fun x hx => hinv x (cyclecheckNode_ok_mono fuel v flags fl2 hn x hx)
        exact ihe u fl2 w (fun x hx => hsub x (List.mem_cons_of_mem e hx))
          hru hinv2 h
      | cycleAt w2 =>
        rw [ccEdges_cons_err hev hn (fun fl2 h2 => CycleResult.noConfusion h2)]
          at h
        cases h
        have hinvv : ∀ x, flags x = true →
            Reaches g root x ∧ ReachesPlus g x v := by
          intro x hx
          obtain ⟨hrx, hxu⟩ := hinv x hx
          refine ⟨hrx, ?_⟩
          cases hxu with
          | inl heq => exact heq ▸ ⟨v, hedge, Reaches.refl v⟩
          | inr hplus =>
            obtain ⟨y, hxy, hyu⟩ := hplus
            exact ⟨y, hxy, reaches_snoc hyu hedge⟩
        exact hnode v flags w (reaches_snoc hru hedge) hinvv hn
      | fuelOut =>
        rw [ccEdges_cons_err hev hn (fun fl2 h2 => CycleResult.noConfusion h2)]
          at h
        exact CycleResult.noConfusion h

theorem cyclecheckNode_cycle_sound {g : Nat → List GEdge} {root : Nat} :
    ∀ fuel u flags w, Reaches g root u →
      (∀ x, flags x = true → Reaches g root x ∧ ReachesPlus g x u) →
      cyclecheckNode g fuel u flags = .cycleAt w →
      Reaches g root w ∧ ReachesPlus g w w ∧ g w ≠ [] := by
  intro fuel
  induction fuel with
  | zero =>
    intro u flags w _ _ h
    rw [ccNode_zero] at h
    exact CycleResult.noConfusion h
  | succ f ih =>
    intro u flags w hru hinv h
    cases hc : (flags u && !(g u).isEmpty) with
    | true =>
      rw [ccNode_cycle hc] at h
      cases h
      obtain ⟨hfu, hnemp⟩ := Bool.and_eq_true_iff.mp hc
      have hne : g u ≠ [] := by
        intro hnil
        rw [hnil] at hnemp
        cases hnemp
      exact ⟨hru, (hinv u hfu).2, hne⟩
    | false =>
      cases he : cyclecheckEdges g f (g u) (setFlag flags u true) with
      | ok fl2 =>
        rw [ccNode_succ_ok hc he] at h
        exact CycleResult.noConfusion h
      | cycleAt w2 =>
        rw [ccNode_succ_err hc he (fun fl2 h2 => CycleResult.noConfusion h2)]
          at h
        cases h
        have hinv2 : ∀ x, setFlag flags u true x = true →
            Reaches g root x ∧ (x = u ∨ ReachesPlus g x u) := by
          intro x hx
          by_cases hxu : x = u
          · exact ⟨hxu ▸ hru, Or.inl hxu⟩
          · rw [setFlag, if_neg hxu] at hx
            obtain ⟨hrx, hplus⟩ := hinv x hx
            exact ⟨hrx, Or.inr hplus⟩
        exact cyclecheckEdges_cycle_sound ih (g u) u (setFlag flags u true) w
          (fun x hx => hx) hru hinv2 he
      | fuelOut =>
        rw [ccNode_succ_err hc he (fun fl2 h2 => CycleResult.noConfusion h2)]
          at h
        exact CycleResult.noConfusion h

theorem cyclecheckEdges_flagged_not_ok {g : Nat → List GEdge} {fuel : Nat}
    (hnode : ∀ u flags z, flags z = true → g z ≠ [] → Reaches g u z →
      ∀ fl, cyclecheckNode g fuel u flags ≠ .ok fl) :
    ∀ es flags z, flags z = true → g z ≠ [] →
      (∃ e ∈ es, ∃ v, e.v = some v ∧ Reaches g v z) →
      ∀ fl, cyclecheckEdges g fuel es flags ≠ .ok fl := by
  intro es
  induction es with
  | nil =>
    intro flags z _ _ hex fl _
    obtain ⟨e, he, _⟩ := hex
    exact absurd he (List.not_mem_nil e)
  | cons e es ihe =>
    intro flags z hz hgz hex fl h
    obtain ⟨e2, he2, v2, hev2, hv2z⟩ := hex
    cases List.mem_cons.mp he2 with
    | inl heq =>
      subst heq
      cases hn : cyclecheckNode g fuel v2 flags with
      | ok fl2 => exact hnode v2 flags z hz hgz hv2z fl2 hn
      | cycleAt w =>
        rw [ccEdges_cons_err hev2 hn (fun fl2 h2 => CycleResult.noConfusion h2)]
          at h
        exact CycleResult.noConfusion h
      | fuelOut =>
        rw [ccEdges_cons_err hev2 hn (fun fl2 h2 => CycleResult.noConfusion h2)]
          at h
        exact CycleResult.noConfusion h
    | inr hmem =>
      cases hev : e.v with
      | none =>
        rw [ccEdges_cons_none hev] at h
        exact ihe flags z hz hgz ⟨e2, hmem, v2, hev2, hv2z⟩ fl h
      | some v =>
        cases hn : cyclecheckNode g fuel v flags with
        | ok fl2 =>
          rw [ccEdges_cons_ok hev hn] at h
          have hz2 : fl2 z = true := by
            rw [cyclecheckNode_ok_frame fuel v flags fl2 hn z hgz]
            exact hz
          exact ihe fl2 z hz2 hgz ⟨e2, hmem, v2, hev2, hv2z⟩ fl h
        | cycleAt w =>
          rw [ccEdges_cons_err hev hn
            (fun fl2 h2 => CycleResult.noConfusion h2)] at h
          exact CycleResult.noConfusion h
        | fuelOut =>
          rw [ccEdges_cons_err hev hn
            (fun fl2 h2 => CycleResult.noConfusion h2)] at h
          exact CycleResult.noConfusion h

theorem cyclecheckNode_flagged_not_ok {g : Nat → List GEdge} :
    ∀ fuel u flags z, flags z = true → g z ≠ [] → Reaches g u z →
      ∀ fl, cyclecheckNode g fuel u flags ≠ .ok fl := by
  intro fuel
  induction fuel with
  | zero =>
    intro u flags z _ _ _ fl h
    rw [ccNode_zero] at h
    exact CycleResult.noConfusion h
  | succ f ih =>
    intro u flags z hz hgz huz fl h
    cases hc : (flags u && !(g u).isEmpty) with
    | true =>
      rw [ccNode_cycle hc] at h
      exact CycleResult.noConfusion h
    | false =>
      have hne : ¬(u = z) := by
        intro heq
        subst heq
        have hnemp : (g u).isEmpty = false := by
          cases hgl : g u with
          | nil => exact absurd hgl hgz
          | cons a l => rfl
        rw [hz, hnemp] at hc
        cases hc
      cases huz with
      | refl => exact hne rfl
      | step he1 hvz =>
        rename_i v
        obtain ⟨e1, he1g, he1v⟩ := he1
        cases hee : cyclecheckEdges g f (g u) (setFlag flags u true) with
        | ok fl2 =>
          have hz2 : setFlag flags u true z = true := by
            rw [setFlag, if_neg (fun h2 => hne h2.symm)]
            exact hz
          exact cyclecheckEdges_flagged_not_ok ih (g u)
            (setFlag flags u true) z hz2 hgz ⟨e1, he1g, v, he1v, hvz⟩ fl2 hee
        | cycleAt w =>
          rw [ccNode_succ_err hc hee
            (fun fl2 h2 => CycleResult.noConfusion h2)] at h
          exact CycleResult.noConfusion h
        | fuelOut =>
          rw [ccNode_succ_err hc hee
            (fun fl2 h2 => CycleResult.noConfusion h2)] at h
          exact CycleResult.noConfusion h

theorem cyclecheckEdges_cycle_not_ok {g : Nat → List GEdge} {fuel : Nat}
    (hnode : ∀ u flags w, Reaches g u w → ReachesPlus g w w →
      ∀ fl, cyclecheckNode g fuel u flags ≠ .ok fl) :
    ∀ es flags w, ReachesPlus g w w →
      (∃ e ∈ es, ∃ v, e.v = some v ∧ Reaches g v w) →
      ∀ fl, cyclecheckEdges g fuel es flags ≠ .ok fl := by
  intro es
  induction es with
  | nil =>
    intro flags w _ hex fl _
    obtain ⟨e, he, _⟩ := hex
    exact absurd he (List.not_mem_nil e)
  | cons e es ihe =>
    intro flags w hcyc hex fl h
    obtain ⟨e2, he2, v2, hev2, hv2w⟩ := hex
    cases List.mem_cons.mp he2 with
    | inl heq =>
      subst heq
      cases hn : cyclecheckNode g fuel v2 flags with
      | ok fl2 => exact hnode v2 flags w hv2w hcyc fl2 hn
      | cycleAt w2 =>
        rw [ccEdges_cons_err hev2 hn (fun fl2 h2 => CycleResult.noConfusion h2)]
          at h
        exact CycleResult.noConfusion h
      | fuelOut =>
        rw [ccEdges_cons_err hev2 hn (fun fl2 h2 => CycleResult.noConfusion h2)]
          at h
        exact CycleResult.noConfusion h
    | inr hmem =>
      cases hev : e.v with
      | none =>
        rw [ccEdges_cons_none hev] at h
        exact ihe flags w hcyc ⟨e2, hmem, v2, hev2, hv2w⟩ fl h
      | some v =>
        cases hn : cyclecheckNode g fuel v flags with
        | ok fl2 =>
          rw [ccEdges_cons_ok hev hn] at h
          exact ihe fl2 w hcyc ⟨e2, hmem, v2, hev2, hv2w⟩ fl h
        | cycleAt w2 =>
          rw [ccEdges_cons_err hev hn
            (fun fl2 h2 => CycleResult.noConfusion h2)] at h
          exact CycleResult.noConfusion h
        | fuelOut =>
          rw [ccEdges_cons_err hev hn
            (fun fl2 h2 => CycleResult.noConfusion h2)] at h
          exact CycleResult.noConfusion h

theorem cyclecheckNode_cycle_not_ok {g : Nat → List GEdge} :
    ∀ fuel u flags w, Reaches g u w → ReachesPlus g w w →
      ∀ fl, cyclecheckNode g fuel u flags ≠ .ok fl := by
  intro fuel
  induction fuel with
  | zero =>
    intro u flags w _ _ fl h
    rw [ccNode_zero] at h
    exact CycleResult.noConfusion h
  | succ f ih =>
    intro u flags w huw hcyc fl h
    cases hc : (flags u && !(g u).isEmpty) with
    | true =>
      rw [ccNode_cycle hc] at h
      exact CycleResult.noConfusion h
    | false =>
      cases hee : cyclecheckEdges g f (g u) (setFlag flags u true) with
      | ok fl2 =>
        by_cases hueq : u = w
        · subst hueq
          obtain ⟨v, ⟨e, heg, hev⟩, hvu⟩ := hcyc
          have hgne : g u ≠ [] := by
            intro hnil
            rw [hnil] at heg
            exact List.not_mem_nil e heg
          have hz2 : setFlag flags u true u = true := by
            rw [setFlag, if_pos rfl]
          exact cyclecheckEdges_flagged_not_ok
            (cyclecheckNode_flagged_not_ok f) (g u) (setFlag flags u true) u
            hz2 hgne ⟨e, heg, v, hev, hvu⟩ fl2 hee
        · cases huw with
          | refl => exact hueq rfl
          | step he1 hv0w =>
            rename_i v0
            obtain ⟨e0, he0g, he0v⟩ := he1
            exact cyclecheckEdges_cycle_not_ok ih (g u) (setFlag flags u true)
              w hcyc ⟨e0, he0g, v0, he0v, hv0w⟩ fl2 hee
      | cycleAt w2 =>
        rw [ccNode_succ_err hc hee
          (fun fl2 h2 => CycleResult.noConfusion h2)] at h
        exact CycleResult.noConfusion h
      | fuelOut =>
        rw [ccNode_succ_err hc hee
          (fun fl2 h2 => CycleResult.noConfusion h2)] at h
        exact CycleResult.noConfusion h

/-- C7: soundness and completeness of the cycle check started by
buildgraph at the root with all Cycle flags clear.  First, whenever the
check succeeds it leaves every Cycle flag exactly as it found it, so the
graph is unchanged.  Second, on an acyclic reachable region, witnessed by
a rank function that strictly decreases along every edge out of a node
reachable from the root, the check reports no error, given fuel exceeding
the rank of the root.  Third, if the check reports a fatal cycle error
naming node w, then w is reachable from the root, w lies on a genuine
dependency cycle, and w has a nonempty prerequisite list.  Fourth,
conversely, if some node on a genuine cycle is reachable from the root,
the check never returns success. -/
theorem c7_cyclecheck_error_iff_cycle (g : Nat → List GEdge)
    (root fuel : Nat) :
    (∀ fl, cyclecheckNode g fuel root (fun _ => false) = .ok fl →
      fl = (fun _ => false))
    ∧ (∀ rank : Nat → Nat, RankedFrom g root rank → rank root < fuel →
      cyclecheckNode g fuel root (fun _ => false) = .ok (fun _ => false))
    ∧ (∀ w, cyclecheckNode g fuel root (fun _ => false) = .cycleAt w →
      Reaches g root w ∧ ReachesPlus g w w ∧ g w ≠ [])
    ∧ (∀ w fl, Reaches g root w → ReachesPlus g w w →
      cyclecheckNode g fuel root (fun _ => false) ≠ .ok fl) := by
  refine ⟨?_, ?_, ?_, ?_⟩
  · intro fl h
    funext x
    cases hx : fl x with
    | false => rfl
    | true =>
      exact (cyclecheckNode_ok_mono fuel root (fun _ => false) fl h x hx).symm
  · intro rank H hr
    exact cyclecheck_acyclic_ok H fuel root (fun _ => false)
      (Reaches.refl root) hr (fun w _ => rfl)
  · intro w h
    exact cyclecheckNode_cycle_sound fuel root (fun _ => false) w
      (Reaches.refl root) (fun x hx => absurd hx (by simp)) h
  · intro w fl hrw hcyc
    exact cyclecheckNode_cycle_not_ok fuel root (fun _ => false) w hrw hcyc fl

/-- C7 witness: on the edgeless graph, with the constant rank function
and fuel 2, the second component yields a successful check that leaves
all flags clear. -/
theorem c7_cyclecheck_witness :
    cyclecheckNode (fun _ => ([] : List GEdge)) 2 0 (fun _ => false) =
      CycleResult.ok (fun _ => false) :=
  (c7_cyclecheck_error_iff_cycle (fun _ => []) 0 2).2.1 (fun _ => 0)
    (fun u _ e he => absurd he (List.not_mem_nil e)) (by decide)
/-! C8: the vacuous prune. -/

theorem vacuousUnmarkGo_spec (edges : List VEdge) :
    ∀ fuel k cur, cur.length = edges.length → fuel + k = edges.length →
    (∀ i (hi : i < edges.length) (hc : i < cur.length),
      cur[i].v = edges[i].v ∧
      cur[i].r = edges[i].r ∧
      (cur[i].togo = false ↔ edges[i].togo = false ∨
        ∃ j, ∃ hj : j < edges.length, j < k ∧
          edges[j].r = edges[i].r ∧ edges[j].togo = false)) →
    vacuousUnmarkGo fuel k cur =
      edges.map (fun f =>
        VEdge.mk f.v f.r
          ((edges.filter (fun x => x.r == f.r)).all (fun x => x.togo))) := by
  intro fuel
  induction fuel with
  | zero =>
    intro k cur hlen hk hinv
    rw [vacuousUnmarkGo]
    refine List.ext_getElem (by simp [hlen]) ?_
    intro i hci hmi
    have hi : i < edges.length := by
      rw [hlen] at hci
      exact hci
    obtain ⟨hv, hr, ht⟩ := hinv i hi hci
    rw [List.getElem_map]
    have hiff : (cur[i].togo = false ↔
        ((edges.filter (fun x => x.r == edges[i].r)).all
          (fun x => x.togo)) = false) := by
      rw [ht]
      constructor
      · intro hcase
        rw [List.all_eq_false]
        cases hcase with
        | inl h0 =>
          exact ⟨edges[i], List.mem_filter.mpr
            ⟨List.getElem_mem hi, beq_self_eq_true _⟩, by rw [h0]; decide⟩
        | inr hex =>
          obtain ⟨j, hj, _, hjr, hjt⟩ := hex
          exact ⟨edges[j], List.mem_filter.mpr
            ⟨List.getElem_mem hj, by rw [hjr]; exact beq_self_eq_true _⟩,
            by rw [hjt]; decide⟩
      · intro hall
        rw [List.all_eq_false] at hall
        obtain ⟨x, hxm, hxt⟩ := hall
        obtain ⟨hxe, hxr⟩ := List.mem_filter.mp hxm
        obtain ⟨j, hj, hxj⟩ := List.mem_iff_getElem.mp hxe
        right
        refine ⟨j, hj, by omega, ?_, ?_⟩
        · rw [hxj]
          exact beq_iff_eq.mp hxr
        · rw [hxj]
          cases hxb : x.togo with
          | false => rfl
          | true => rw [hxb] at hxt; simp at hxt
    have htogo : cur[i].togo =
        ((edges.filter (fun x => x.r == edges[i].r)).all
          (fun x => x.togo)) := by
      cases hcu : cur[i].togo with
      | false =>
        cases hal : ((edges.filter (fun x => x.r == edges[i].r)).all
            (fun x => x.togo)) with
        | false => rfl
        | true => rw [hcu, hal] at hiff; simp at hiff
      | true =>
        cases hal : ((edges.filter (fun x => x.r == edges[i].r)).all
            (fun x => x.togo)) with
        | false => rw [hcu, hal] at hiff; simp at hiff
        | true => rfl
    calc cur[i] = VEdge.mk cur[i].v cur[i].r cur[i].togo := rfl
      _ = _ := by rw [hv, hr, htogo]
  | succ f ihf =>
    intro k cur hlen hk hinv
    have hki : k < edges.length := by omega
    have hkc : k < cur.length := by omega
    rw [vacuousUnmarkGo, dif_pos hkc]
    obtain ⟨hkv, hkr, hkt⟩ := hinv k hki hkc
    cases het : cur[k].togo with
    | true =>
      simp only [List.get_eq_getElem, het, Bool.not_true, Bool.false_eq_true,
        if_false]
      refine ihf (k + 1) cur hlen (by omega) ?_
      intro i hi hci
      obtain ⟨hv, hr, ht⟩ := hinv i hi hci
      refine ⟨hv, hr, ?_⟩
      rw [ht]
      constructor
      · rintro (h0 | ⟨j, hj, hjk, hjr, hjt⟩)
        · exact Or.inl h0
        · exact Or.inr ⟨j, hj, by omega, hjr, hjt⟩
      · rintro (h0 | ⟨j, hj, hjk, hjr, hjt⟩)
        · exact Or.inl h0
        · by_cases hjek : j = k
          · subst hjek
            rw [(hinv j hj hkc).2.2.mpr (Or.inl hjt)] at het
            cases het
          · exact Or.inr ⟨j, hj, by omega, hjr, hjt⟩
    | false =>
      simp only [List.get_eq_getElem, het, Bool.not_false, if_true]
      refine ihf (k + 1) _ (by simp [hlen]) (by omega) ?_
      intro i hi hci2
      have hci : i < cur.length := by
        rw [List.length_map] at hci2
        exact hci2
      obtain ⟨hv, hr, ht⟩ := hinv i hi hci
      have hmget : (cur.map (fun f =>
          if f.r == cur[k].r then { f with togo := false }
          else f))[i] =
          (if cur[i].r == cur[k].r then { cur[i] with togo := false }
            else cur[i]) := by
        rw [List.getElem_map]
      rw [hmget]
      by_cases hreq : cur[i].r = cur[k].r
      · rw [if_pos (beq_iff_eq.mpr hreq)]
        refine ⟨hv, hr, ?_⟩
        simp only [true_iff]
        have hkcase := hkt.mp het
        have hir : edges[i].r = edges[k].r := by
          rw [← hr, ← hkr]
          exact hreq
        cases hkcase with
        | inl h0 => exact Or.inr ⟨k, hki, by omega, by rw [hir], h0⟩
        | inr hex =>
          obtain ⟨j, hj, hjk, hjr, hjt⟩ := hex
          exact Or.inr ⟨j, hj, by omega, by rw [hjr, hir], hjt⟩
      · rw [if_neg (by simpa using hreq)]
        refine ⟨hv, hr, ?_⟩
        rw [ht]
        constructor
        · rintro (h0 | ⟨j, hj, hjk, hjr, hjt⟩)
          · exact Or.inl h0
          · exact Or.inr ⟨j, hj, by omega, hjr, hjt⟩
        · rintro (h0 | ⟨j, hj, hjk, hjr, hjt⟩)
          · exact Or.inl h0
          · by_cases hjek : j = k
            · subst hjek
              rw [← hkr] at hjr
              rw [← hr] at hjr
              exact absurd hjr.symm hreq
            · exact Or.inr ⟨j, hj, by omega, hjr, hjt⟩

theorem vacuousUnmark_spec (edges : List VEdge) :
    vacuousUnmark edges =
      edges.map (fun f =>
        VEdge.mk f.v f.r
          ((edges.filter (fun x => x.r == f.r)).all (fun x => x.togo))) := by
  refine vacuousUnmarkGo_spec edges edges.length 0 edges rfl rfl ?_
  intro i hi hc
  refine ⟨rfl, rfl, ?_⟩
  constructor
  · exact fun h => Or.inl h
  · rintro (h0 | ⟨j, hj, hjk, _, _⟩)
    · exact h0
    · omega

theorem forall2_mem_left {α β : Type} {R : α → β → Prop} {l1 : List α}
    {l2 : List β} (h : List.Forall₂ R l1 l2) :
    ∀ {a}, a ∈ l1 → ∃ b ∈ l2, R a b := by
  induction h with
  | nil => intro a ha; exact absurd ha (List.not_mem_nil a)
  | cons hab htl ih =>
    intro a ha
    cases List.mem_cons.mp ha with
    | inl heq => exact heq ▸ ⟨_, List.mem_cons_self _ _, hab⟩
    | inr hm =>
      obtain ⟨b, hb, hr⟩ := ih hm
      exact ⟨b, List.mem_cons_of_mem _ hb, hr⟩

theorem forall2_mem_right {α β : Type} {R : α → β → Prop} {l1 : List α}
    {l2 : List β} (h : List.Forall₂ R l1 l2) :
    ∀ {b}, b ∈ l2 → ∃ a ∈ l1, R a b := by
  induction h with
  | nil => intro b hb; exact absurd hb (List.not_mem_nil b)
  | cons hab htl ih =>
    intro b hb
    cases List.mem_cons.mp hb with
    | inl heq => exact heq ▸ ⟨_, List.mem_cons_self _ _, hab⟩
    | inr hm =>
      obtain ⟨a, ha, hr⟩ := ih hm
      exact ⟨a, List.mem_cons_of_mem _ ha, hr⟩

theorem vedgeMark_vr {im P : Nat → Bool} {a b : VEdge}
    (h : VEdgeMark im P a b) : b.v = a.v ∧ b.r = a.r := by
  cases h with
  | keep => exact ⟨rfl, rfl⟩
  | mark => exact ⟨rfl, rfl⟩

theorem filter_map_forall2 {im P : Nat → Bool} (q : Nat → Bool)
    (g : VEdge → VEdge)
    (hg : ∀ f, (g f).v = f.v ∧ (g f).r = f.r ∧ (g f).togo = !(q f.r)) :
    ∀ {es es2 : List VEdge}, List.Forall₂ (VEdgeMark im P) es es2 →
    (∀ e ∈ es, e.togo = false) →
    (es2.map g).filter (fun e => !e.togo) = es.filter (fun e => q e.r) := by
  intro es es2 hf
  induction hf with
  | nil => intro _; rfl
  | cons hab htl ih =>
    rename_i a b l1 l2
    intro h0
    have hco : ∀ e ∈ l1, e.togo = false :=
      fun e he => h0 e (List.mem_cons_of_mem a he)
    have ha0 : a.togo = false := h0 a (List.mem_cons_self a l1)
    obtain ⟨hbv, hbr⟩ := vedgeMark_vr hab
    obtain ⟨hgv, hgr, hgt⟩ := hg b
    rw [List.map_cons, List.filter_cons, List.filter_cons]
    cases hq : q a.r with
    | true =>
      have hgb : (g b).togo = false := by
        rw [hgt, hbr, hq]
        rfl
      have hba : g b = a := by
        calc g b = VEdge.mk (g b).v (g b).r (g b).togo := rfl
          _ = VEdge.mk a.v a.r false := by rw [hgv, hgr, hbv, hbr, hgb]
          _ = VEdge.mk a.v a.r a.togo := by rw [ha0]
          _ = a := rfl
      rw [hgb]
      simp only [Bool.not_false]
      rw [if_pos trivial, if_pos trivial, hba, ih hco]
    | false =>
      have hgb : (g b).togo = true := by
        rw [hgt, hbr, hq]
        rfl
      rw [hgb]
      simp only [Bool.not_true]
      rw [if_neg (by decide), if_neg (by decide), ih hco]

theorem vacuous_empty_iff {im P : Nat → Bool} {es es2 : List VEdge}
    (hf : List.Forall₂ (VEdgeMark im P) es es2) :
    (es.filter (fun e =>
      !((es2.filter (fun x => x.r == e.r)).all (fun x => x.togo)))).isEmpty =
      es2.all (fun e => e.togo) := by
  cases hall : es2.all (fun e => e.togo) with
  | true =>
    rw [List.isEmpty_iff, List.filter_eq_nil_iff]
    intro e he
    have hsub : ((es2.filter (fun x => x.r == e.r)).all
        (fun x => x.togo)) = true := by
      rw [List.all_eq_true]
      intro x hx
      exact List.all_eq_true.mp hall x (List.mem_filter.mp hx).1
    rw [hsub]
    decide
  | false =>
    have hex : ∃ b ∈ es2, b.togo = false := by
      rw [List.all_eq_false] at hall
      obtain ⟨b, hb, hbt⟩ := hall
      refine ⟨b, hb, ?_⟩
      cases hbb : b.togo with
      | false => rfl
      | true => rw [hbb] at hbt; simp at hbt
    obtain ⟨b, hb, hbt⟩ := hex
    obtain ⟨a, ha, hm⟩ := forall2_mem_right hf hb
    obtain ⟨_, hbr⟩ := vedgeMark_vr hm
    have hmemf : b ∈ es2.filter (fun x => x.r == a.r) :=
      List.mem_filter.mpr ⟨hb, beq_iff_eq.mpr hbr⟩
    have hnall : ((es2.filter (fun x => x.r == a.r)).all
        (fun x => x.togo)) = false := by
      rw [List.all_eq_false]
      exact ⟨b, hmemf, by rw [hbt]; decide⟩
    have hane : a ∈ es.filter (fun e =>
        !((es2.filter (fun x => x.r == e.r)).all (fun x => x.togo))) :=
      List.mem_filter.mpr ⟨ha, by rw [hnall]; rfl⟩
    cases hie : (es.filter (fun e =>
        !((es2.filter (fun x => x.r == e.r)).all
          (fun x => x.togo)))).isEmpty with
    | false => rfl
    | true =>
      rw [List.isEmpty_iff] at hie
      rw [hie] at hane
      exact absurd hane (List.not_mem_nil a)

theorem vacuous_removed {im P : Nat → Bool} {es es2 : List VEdge}
    (hf : List.Forall₂ (VEdgeMark im P) es es2)
    (h0 : ∀ e ∈ es, e.togo = false) {e : VEdge} (he : e ∈ es)
    (hrem : ((es2.filter (fun x => x.r == e.r)).all
      (fun x => x.togo)) = true) :
    im e.r = true ∧ ∃ v, e.v = some v ∧ P v = false := by
  obtain ⟨b, hb, hm⟩ := forall2_mem_left hf he
  obtain ⟨_, hbr⟩ := vedgeMark_vr hm
  have hbf : b ∈ es2.filter (fun x => x.r == e.r) :=
    List.mem_filter.mpr ⟨hb, beq_iff_eq.mpr hbr⟩
  have hbt : b.togo = true := List.all_eq_true.mp hrem b hbf
  cases hm with
  | keep => rw [h0 e he] at hbt; cases hbt
  | mark v hv hmm hp => exact ⟨hmm, v, hv, hp⟩

theorem vprocessed_compose {im P : Nat → Bool} {n1 n2 n3 : VNode}
    (h12 : n2 = n1 ∨ VProcessed im P n1 n2)
    (h23 : n3 = n2 ∨ VProcessed im P n2 n3) :
    n3 = n1 ∨ VProcessed im P n1 n3 := by
  cases h12 with
  | inl he12 =>
    cases h23 with
    | inl he23 => exact Or.inl (he23.trans he12)
    | inr hp23 => exact Or.inr (he12 ▸ hp23)
  | inr hp12 =>
    cases h23 with
    | inl he23 => exact Or.inr (he23 ▸ hp12)
    | inr hp23 =>
      exact absurd hp23.1 (by rw [hp12.2.1]; exact fun h => Bool.noConfusion h)

theorem vnode_zero {im : Nat → Bool} (u : Nat) (st : VSt) :
    vacuousNode im 0 u st = none := by
  rw [vacuousNode]

theorem vnode_ready {im : Nat → Bool} {f u : Nat} {st : VSt}
    (hr : (st u).ready = true) :
    vacuousNode im (f + 1) u st = some (!(st u).probable, st) := by
  rw [vacuousNode]
  simp [hr]

theorem vnode_fresh {im : Nat → Bool} {f u : Nat} {st : VSt}
    {edges1 : List VEdge} {stm : VSt} {vacF : Bool}
    (hr : (st u).ready = false)
    (he : vacuousEdges im f (st u).prereqs
      (updSt st u { st u with ready := true }) (!(st u).probable) =
      some (edges1, stm, vacF)) :
    vacuousNode im (f + 1) u st = some (vacF, updSt stm u
      { stm u with
        prereqs := (vacuousUnmark edges1).filter (fun e => !e.togo),
        vacflag := (stm u).vacflag || vacF }) := by
  rw [vacuousNode]
  simp only [hr, Bool.false_eq_true, if_false, he]

theorem vnode_fresh_none {im : Nat → Bool} {f u : Nat} {st : VSt}
    (hr : (st u).ready = false)
    (he : vacuousEdges im f (st u).prereqs
      (updSt st u { st u with ready := true }) (!(st u).probable) = none) :
    vacuousNode im (f + 1) u st = none := by
  rw [vacuousNode]
  simp only [hr, Bool.false_eq_true, if_false, he]

theorem vedges_nil {im : Nat → Bool} (fuel : Nat) (st : VSt) (vac : Bool) :
    vacuousEdges im fuel [] st vac = some ([], st, vac) := by
  rw [vacuousEdges]

theorem vedges_cons_none_ok {im : Nat → Bool} {fuel : Nat} {e : VEdge}
    {es : List VEdge} {st : VSt} {vac : Bool} {es2 : List VEdge} {st2 : VSt}
    {vac2 : Bool} (hev : e.v = none)
    (hrec : vacuousEdges im fuel es st false = some (es2, st2, vac2)) :
    vacuousEdges im fuel (e :: es) st vac = some (e :: es2, st2, vac2) := by
  rw [vacuousEdges, hev]
  simp only [hrec]

theorem vedges_cons_none_none {im : Nat → Bool} {fuel : Nat} {e : VEdge}
    {es : List VEdge} {st : VSt} {vac : Bool} (hev : e.v = none)
    (hrec : vacuousEdges im fuel es st false = none) :
    vacuousEdges im fuel (e :: es) st vac = none := by
  rw [vacuousEdges, hev]
  simp only [hrec]

theorem vedges_cons_some_nodenone {im : Nat → Bool} {fuel : Nat} {e : VEdge}
    {es : List VEdge} {st : VSt} {vac : Bool} {v : Nat} (hev : e.v = some v)
    (hn : vacuousNode im fuel v st = none) :
    vacuousEdges im fuel (e :: es) st vac = none := by
  rw [vacuousEdges, hev]
  simp only [hn]

theorem vedges_cons_mark {im : Nat → Bool} {fuel : Nat} {e : VEdge}
    {es : List VEdge} {st : VSt} {vac : Bool} {v : Nat} {b : Bool} {stm : VSt}
    {es2 : List VEdge} {st3 : VSt} {vac2 : Bool} (hev : e.v = some v)
    (hn : vacuousNode im fuel v st = some (b, stm))
    (hbm : (b && im e.r) = true)
    (hrec : vacuousEdges im fuel es stm vac = some (es2, st3, vac2)) :
    vacuousEdges im fuel (e :: es) st vac =
      some ({ e with togo := true } :: es2, st3, vac2) := by
  rw [vacuousEdges, hev]
  simp only [hn, hbm, if_true, hrec]

theorem vedges_cons_mark_none {im : Nat → Bool} {fuel : Nat} {e : VEdge}
    {es : List VEdge} {st : VSt} {vac : Bool} {v : Nat} {b : Bool} {stm : VSt}
    (hev : e.v = some v) (hn : vacuousNode im fuel v st = some (b, stm))
    (hbm : (b && im e.r) = true)
    (hrec : vacuousEdges im fuel es stm vac = none) :
    vacuousEdges im fuel (e :: es) st vac = none := by
  rw [vacuousEdges, hev]
  simp only [hn, hbm, if_true, hrec]

theorem vedges_cons_keep {im : Nat → Bool} {fuel : Nat} {e : VEdge}
    {es : List VEdge} {st : VSt} {vac : Bool} {v : Nat} {b : Bool} {stm : VSt}
    {es2 : List VEdge} {st3 : VSt} {vac2 : Bool} (hev : e.v = some v)
    (hn : vacuousNode im fuel v st = some (b, stm))
    (hbm : (b && im e.r) = false)
    (hrec : vacuousEdges im fuel es stm false = some (es2, st3, vac2)) :
    vacuousEdges im fuel (e :: es) st vac = some (e :: es2, st3, vac2) := by
  rw [vacuousEdges, hev]
  simp only [hn, hbm, Bool.false_eq_true, if_false, hrec]

theorem vedges_cons_keep_none {im : Nat → Bool} {fuel : Nat} {e : VEdge}
    {es : List VEdge} {st : VSt} {vac : Bool} {v : Nat} {b : Bool} {stm : VSt}
    (hev : e.v = some v) (hn : vacuousNode im fuel v st = some (b, stm))
    (hbm : (b && im e.r) = false)
    (hrec : vacuousEdges im fuel es stm false = none) :
    vacuousEdges im fuel (e :: es) st vac = none := by
  rw [vacuousEdges, hev]
  simp only [hn, hbm, Bool.false_eq_true, if_false, hrec]

theorem vacuousEdges_spec {im : Nat → Bool} {fuel : Nat}
    (hnode : ∀ u st b st2,
      (∀ x, ∀ e ∈ (st x).prereqs, e.togo = false) →
      vacuousNode im fuel u st = some (b, st2) →
      (∀ x, (st2 x).probable = (st x).probable) ∧
      (∀ x, st2 x = st x ∨
        VProcessed im (fun v => (st v).probable) (st x) (st2 x)) ∧
      (∀ x, (st x).ready = true → st2 x = st x) ∧
      (∀ x, ∀ e ∈ (st2 x).prereqs, e.togo = false) ∧
      (b = true → (st u).probable = false)) :
    ∀ es st vac es2 st2 vac2,
      (∀ x, ∀ e ∈ (st x).prereqs, e.togo = false) →
      (∀ e ∈ es, e.togo = false) →
      vacuousEdges im fuel es st vac = some (es2, st2, vac2) →
      (∀ x, (st2 x).probable = (st x).probable) ∧
      (∀ x, st2 x = st x ∨
        VProcessed im (fun v => (st v).probable) (st x) (st2 x)) ∧
      (∀ x, (st x).ready = true → st2 x = st x) ∧
      (∀ x, ∀ e ∈ (st2 x).prereqs, e.togo = false) ∧
      List.Forall₂ (VEdgeMark im (fun v => (st v).probable)) es es2 ∧
      vac2 = (vac && es2.all (fun e => e.togo)) := by
  intro es
  induction es with
  | nil =>
    intro st vac es2 st2 vac2 hst _ h
    rw [vedges_nil] at h
    cases h
    refine ⟨fun x => rfl, fun x => Or.inl rfl, fun x _ => rfl, hst,
      List.Forall₂.nil, ?_⟩
    simp
  | cons e es ih =>
    intro st vac es2 st2 vac2 hst hes h
    have he0 : e.togo = false := hes e (List.mem_cons_self e es)
    have hesT : ∀ x ∈ es, x.togo = false :=
      fun x hx => hes x (List.mem_cons_of_mem e hx)
    cases hev : e.v with
    | none =>
      cases hrec : vacuousEdges im fuel es st false with
      | none => rw [vedges_cons_none_none hev hrec] at h; cases h
      | some p =>
        obtain ⟨esr, str, vacr⟩ := p
        rw [vedges_cons_none_ok hev hrec] at h
        cases h
        obtain ⟨c1, c2, c3, c4, c5, c6⟩ := ih st false esr st2 vac2 hst hesT
          hrec
        refine ⟨c1, c2, c3, c4, List.Forall₂.cons (VEdgeMark.keep e) c5, ?_⟩
        rw [c6, List.all_cons, he0]
        simp
    | some v =>
      cases hn : vacuousNode im fuel v st with
      | none => rw [vedges_cons_some_nodenone hev hn] at h; cases h
      | some q =>
        obtain ⟨b, stm⟩ := q
        obtain ⟨n1, n2, n3, n4, n5⟩ := hnode v st b stm hst hn
        have hPeq : (fun w => (stm w).probable) =
            (fun w => (st w).probable) := funext n1
        cases hbm : (b && im e.r) with
        | true =>
          cases hrec : vacuousEdges im fuel es stm vac with
          | none => rw [vedges_cons_mark_none hev hn hbm hrec] at h; cases h
          | some p =>
            obtain ⟨esr, str, vacr⟩ := p
            rw [vedges_cons_mark hev hn hbm hrec] at h
            cases h
            obtain ⟨c1, c2, c3, c4, c5, c6⟩ := ih stm vac esr st2 vac2 n4
              hesT hrec
            rw [hPeq] at c2 c5
            obtain ⟨hb, hm⟩ := Bool.and_eq_true_iff.mp hbm
            refine ⟨?_, ?_, ?_, c4, ?_, ?_⟩
            · intro x
              rw [c1 x, n1 x]
            · intro x
              exact vprocessed_compose (n2 x) (c2 x)
            · intro x hx
              have h1 := n3 x hx
              have h2 : (stm x).ready = true := by rw [h1]; exact hx
              rw [c3 x h2, h1]
            · exact List.Forall₂.cons
                (VEdgeMark.mark e v hev hm (n5 hb)) c5
            · rw [c6, List.all_cons]
              simp
        | false =>
          cases hrec : vacuousEdges im fuel es stm false with
          | none => rw [vedges_cons_keep_none hev hn hbm hrec] at h; cases h
          | some p =>
            obtain ⟨esr, str, vacr⟩ := p
            rw [vedges_cons_keep hev hn hbm hrec] at h
            cases h
            obtain ⟨c1, c2, c3, c4, c5, c6⟩ := ih stm false esr st2 vac2 n4
              hesT hrec
            rw [hPeq] at c2 c5
            refine ⟨?_, ?_, ?_, c4, ?_, ?_⟩
            · intro x
              rw [c1 x, n1 x]
            · intro x
              exact vprocessed_compose (n2 x) (c2 x)
            · intro x hx
              have h1 := n3 x hx
              have h2 : (stm x).ready = true := by rw [h1]; exact hx
              rw [c3 x h2, h1]
            · exact List.Forall₂.cons (VEdgeMark.keep e) c5
            · rw [c6, List.all_cons, he0]
              simp

theorem vacuousNode_spec {im : Nat → Bool} :
    ∀ fuel u st b st2,
      (∀ x, ∀ e ∈ (st x).prereqs, e.togo = false) →
      vacuousNode im fuel u st = some (b, st2) →
      (∀ x, (st2 x).probable = (st x).probable) ∧
      (∀ x, st2 x = st x ∨
        VProcessed im (fun v => (st v).probable) (st x) (st2 x)) ∧
      (∀ x, (st x).ready = true → st2 x = st x) ∧
      (∀ x, ∀ e ∈ (st2 x).prereqs, e.togo = false) ∧
      (b = true → (st u).probable = false) := by
  intro fuel
  induction fuel with
  | zero =>
    intro u st b st2 _ h
    rw [vnode_zero] at h
    cases h
  | succ f ih =>
    intro u st b st2 hst h
    cases hr : (st u).ready with
    | true =>
      rw [vnode_ready hr] at h
      cases h
      refine ⟨fun x => rfl, fun x => Or.inl rfl, fun x _ => rfl, hst, ?_⟩
      intro hb
      cases hp : (st u).probable with
      | false => rfl
      | true => rw [hp] at hb; cases hb
    | false =>
      cases he : vacuousEdges im f (st u).prereqs
          (updSt st u { st u with ready := true }) (!(st u).probable) with
      | none => rw [vnode_fresh_none hr he] at h; cases h
      | some p =>
        obtain ⟨edges1, stm, vacF⟩ := p
        rw [vnode_fresh hr he] at h
        cases h
        set st1 := updSt st u { st u with ready := true } with hst1
        have hst1u : st1 u = { st u with ready := true } := by
          rw [hst1, updSt, if_pos rfl]
        have hst1o : ∀ x, x ≠ u → st1 x = st x := by
          intro x hx
          rw [hst1, updSt, if_neg hx]
        have hst1p : ∀ x, (st1 x).probable = (st x).probable := by
          intro x
          by_cases hx : x = u
          · subst hx; rw [hst1u]
          · rw [hst1o x hx]
        have hst1togo : ∀ x, ∀ e ∈ (st1 x).prereqs, e.togo = false := by
          intro x
          by_cases hx : x = u
          · subst hx; rw [hst1u]; exact hst x
          · rw [hst1o x hx]; exact hst x
        obtain ⟨e1, e2, e3, e4, e5, e6⟩ := vacuousEdges_spec ih
          (st u).prereqs st1 (!(st u).probable) edges1 stm b hst1togo
          (hst u) he
        have hPeq : (fun w => (st1 w).probable) =
            (fun w => (st w).probable) := funext hst1p
        rw [hPeq] at e2 e5
        have hstmu : stm u = { st u with ready := true } := by
          rw [e3 u (by rw [hst1u]), hst1u]
        have hE3 : (vacuousUnmark edges1).filter (fun e => !e.togo) =
            (st u).prereqs.filter (fun e =>
              !((edges1.filter (fun x => x.r == e.r)).all
                (fun x => x.togo))) := by
          rw [vacuousUnmark_spec]
          exact filter_map_forall2
            (fun r => !((edges1.filter (fun x => x.r == r)).all
              (fun x => x.togo)))
            (fun fe => VEdge.mk fe.v fe.r
              ((edges1.filter (fun x => x.r == fe.r)).all (fun x => x.togo)))
            (fun fe => ⟨rfl, rfl, by rw [Bool.not_not]⟩) e5 (hst u)
        have hfin : ∀ x, updSt stm u
            { stm u with
              prereqs := (vacuousUnmark edges1).filter (fun e => !e.togo),
              vacflag := (stm u).vacflag || b } x =
            if x = u then
              { stm u with
                prereqs := (vacuousUnmark edges1).filter (fun e => !e.togo),
                vacflag := (stm u).vacflag || b }
            else stm x := by
          intro x
          rw [updSt]
        have hemp : ((vacuousUnmark edges1).filter
            (fun e => !e.togo)).isEmpty = edges1.all (fun e => e.togo) := by
          rw [hE3]
          exact vacuous_empty_iff e5
        refine ⟨?_, ?_, ?_, ?_, ?_⟩
        · intro x
          rw [hfin x]
          by_cases hx : x = u
          · rw [if_pos hx, hx, hstmu]
          · rw [if_neg hx, e1 x]
            by_cases hx2 : x = u
            · exact absurd hx2 hx
            · rw [hst1o x hx]
        · intro x
          rw [hfin x]
          by_cases hx : x = u
          · subst hx
            rw [if_pos rfl]
            refine Or.inr ⟨hr, ?_, ?_, ?_, ?_, ?_⟩
            · rw [hstmu]
            · rw [hstmu]
            · refine ⟨fun r =>
                !((edges1.filter (fun x2 => x2.r == r)).all
                  (fun x2 => x2.togo)), ?_⟩
              exact hE3
            · intro e he2 hne
              rw [hE3] at hne
              have hq : (!((edges1.filter (fun x2 => x2.r == e.r)).all
                  (fun x2 => x2.togo))) = false := by
                cases hqq : (!((edges1.filter (fun x2 => x2.r == e.r)).all
                    (fun x2 => x2.togo))) with
                | false => rfl
                | true => exact absurd (List.mem_filter.mpr ⟨he2, hqq⟩) hne
              have hall : ((edges1.filter (fun x2 => x2.r == e.r)).all
                  (fun x2 => x2.togo)) = true := by
                cases hqq : ((edges1.filter (fun x2 => x2.r == e.r)).all
                    (fun x2 => x2.togo)) with
                | true => rfl
                | false => rw [hqq] at hq; cases hq
              exact vacuous_removed e5 (hst x) he2 hall
            · rw [hstmu]
              rw [e6, hemp]
          · rw [if_neg hx]
            have hcomp := e2 x
            rw [hst1o x hx] at hcomp
            exact hcomp
        · intro x hx
          rw [hfin x]
          have hxu : ¬(x = u) := by
            intro hh
            subst hh
            rw [hr] at hx
            cases hx
          rw [if_neg hxu]
          have h1 : (st1 x).ready = true := by rw [hst1o x hxu]; exact hx
          rw [e3 x h1, hst1o x hxu]
        · intro x
          rw [hfin x]
          by_cases hx : x = u
          · rw [if_pos hx]
            intro e he2
            have := List.mem_filter.mp he2
            cases het : e.togo with
            | false => rfl
            | true => rw [het] at this; exact absurd this.2 (by decide)
          · rw [if_neg hx]
            exact e4 x
        · intro hb
          rw [e6, Bool.and_eq_true_iff] at hb
          cases hp : (st u).probable with
          | false => rfl
          | true => rw [hp] at hb; exact absurd hb.1 (by decide)

/-- C8: the vacuous prune.  Given a graph whose nodes start with the
Ready and Vacuous flags clear and all togo marks clear, after a run of
the vacuous pass from any root, every node satisfies: its Probable flag
is untouched; its prerequisite list is the original list filtered by a
per-rule verdict, so for every rule either all of its edges are retained
or all are removed; every removed edge was produced by a meta rule and
led to a child that never acquired the Probable flag; and a node carries
the Vacuous flag exactly when it lacks the Probable flag, it was reached
by the pass, and none of its prerequisites survived. -/
theorem c8_vacuous_prune (im : Nat → Bool) (fuel root : Nat) (st : VSt)
    (b : Bool) (st2 : VSt)
    (hclean : ∀ x, (st x).ready = false ∧ (st x).vacflag = false ∧
      ∀ e ∈ (st x).prereqs, e.togo = false)
    (hrun : vacuousNode im fuel root st = some (b, st2)) :
    ∀ x,
      (st2 x).probable = (st x).probable ∧
      (∃ keep : Nat → Bool,
        (st2 x).prereqs = (st x).prereqs.filter (fun e => keep e.r)) ∧
      (∀ e ∈ (st x).prereqs, e ∉ (st2 x).prereqs →
        im e.r = true ∧ ∃ v, e.v = some v ∧ (st v).probable = false) ∧
      ((st2 x).vacflag = true ↔
        (st x).probable = false ∧ (st2 x).prereqs = [] ∧
          (st2 x).ready = true) := by
  obtain ⟨s1, s2, s3, s4, s5⟩ :=
    vacuousNode_spec fuel root st b st2 (fun x => (hclean x).2.2) hrun
  intro x
  cases s2 x with
  | inl heq =>
    refine ⟨by rw [heq], ⟨fun _ => true, ?_⟩, ?_, ?_⟩
    · rw [heq]
      rw [List.filter_eq_self.mpr (fun a _ => rfl)]
    · intro e he hne
      rw [heq] at hne
      exact absurd he hne
    · rw [heq, (hclean x).2.1]
      constructor
      · intro hff; cases hff
      · intro hcon
        rw [(hclean x).1] at hcon
        cases hcon.2.2
  | inr hproc =>
    obtain ⟨hready0, hready1, hprob, hkeep, hrem, hvac⟩ := hproc
    refine ⟨hprob, hkeep, hrem, ?_⟩
    rw [hvac, (hclean x).2.1, Bool.false_or, Bool.and_eq_true_iff,
      Bool.not_eq_true', List.isEmpty_iff]
    constructor
    · intro hcon
      exact ⟨hcon.1, hcon.2, hready1⟩
    · intro hcon
      exact ⟨hcon.1, hcon.2.1⟩

/-- C8 witness: the claim theorem applied to the single-node fresh graph,
root 0, with every rule a meta rule and fuel 1: node 0 has no
prerequisites and lacks the Probable flag, so it ends up marked
Vacuous. -/
theorem c8_vacuous_witness :
    (updSt (updSt vacSt0 0 { vacSt0 0 with ready := true }) 0
      { (updSt vacSt0 0 { vacSt0 0 with ready := true }) 0 with
        prereqs := (vacuousUnmark []).filter (fun e => !e.togo),
        vacflag :=
          ((updSt vacSt0 0 { vacSt0 0 with ready := true }) 0).vacflag ||
            true } 0).vacflag = true := by
  have hrun : vacuousNode (fun _ => true) (0 + 1) 0 vacSt0 =
      some (true, updSt (updSt vacSt0 0 { vacSt0 0 with ready := true }) 0
        { (updSt vacSt0 0 { vacSt0 0 with ready := true }) 0 with
          prereqs := (vacuousUnmark []).filter (fun e => !e.togo),
          vacflag :=
            ((updSt vacSt0 0 { vacSt0 0 with ready := true }) 0).vacflag ||
              true }) := by
    refine vnode_fresh rfl ?_
    exact vedges_nil 0 _ true
  have h := c8_vacuous_prune (fun _ => true) (0 + 1) 0 vacSt0 true _
    (fun x => ⟨rfl, rfl, fun e he => absurd he (List.not_mem_nil e)⟩)
    hrun 0
  exact (h.2.2.2).mpr ⟨rfl, rfl, rfl⟩
/-! C9: the subprocess-slot protocol. -/

theorem countP_split (p : TPc → Bool) (pre post : List TPc) (x : TPc) :
    List.countP p (pre ++ x :: post) =
      List.countP p pre + List.countP p post +
        (if p x = true then 1 else 0) := by
  rw [List.countP_append, List.countP_cons]
  cases hx : p x with
  | false => simp [hx]
  | true => simp [hx]; omega

theorem mem_split {x a : TPc} {pre post : List TPc} :
    x ∈ pre ++ a :: post ↔ x ∈ pre ∨ x = a ∨ x ∈ post := by
  simp [List.mem_append, List.mem_cons]

theorem countP_of_mem {p : TPc → Bool} {l : List TPc} {a : TPc}
    (ha : a ∈ l) (hpa : p a = true) : 0 < List.countP p l :=
  List.countP_pos_iff.mpr ⟨a, ha, hpa⟩

theorem countP_none {p : TPc → Bool} {l : List TPc}
    (h : List.countP p l = 0) : ∀ a ∈ l, p a = false := by
  intro a ha
  have := List.countP_eq_zero.mp h a ha
  cases hpa : p a with
  | false => rfl
  | true => exact absurd hpa this

theorem oRunCount_def (s : Sched) :
    oRunCount s = List.countP (fun pc => pc == TPc.oRun) s.threads := rfl

theorem holdCount_def (s : Sched) :
    holdCount s = List.countP (fun pc => exclHolding pc) s.threads := rfl

theorem oRunCount_split (r : Nat) (pre post : List TPc) (x : TPc) :
    oRunCount ⟨r, pre ++ x :: post⟩ =
      List.countP (fun pc => pc == TPc.oRun) pre +
      List.countP (fun pc => pc == TPc.oRun) post +
      (if (x == TPc.oRun) = true then 1 else 0) :=
  countP_split _ pre post x

theorem holdCount_split (r : Nat) (pre post : List TPc) (x : TPc) :
    holdCount ⟨r, pre ++ x :: post⟩ =
      List.countP (fun pc => exclHolding pc) pre +
      List.countP (fun pc => exclHolding pc) post +
      (if exclHolding x = true then 1 else 0) :=
  countP_split _ pre post x

theorem running_mk (r : Nat) (l : List TPc) : (Sched.mk r l).running = r := rfl

theorem threads_mk (r : Nat) (l : List TPc) : (Sched.mk r l).threads = l := rfl

theorem schedInv_step {allowed : Nat} {s s2 : Sched}
    (hinv : SchedInv allowed s) (hstep : SchedStep allowed s s2) :
    SchedInv allowed s2 := by
  obtain ⟨i1, i2, i3, i4, i5⟩ := hinv
  cases hstep with
  | oStart hth =>
    rename_i pre post
    have hOo : oRunCount s = List.countP (fun pc => pc == TPc.oRun) pre +
        List.countP (fun pc => pc == TPc.oRun) post := by
      rw [oRunCount_def, hth, countP_split]
      simp
    have hHo : holdCount s = List.countP (fun pc => exclHolding pc) pre +
        List.countP (fun pc => exclHolding pc) post := by
      rw [holdCount_def, hth, countP_split]
      simp [exclHolding]
    have hOn : oRunCount ⟨s.running, pre ++ TPc.oWait :: post⟩ =
        List.countP (fun pc => pc == TPc.oRun) pre +
        List.countP (fun pc => pc == TPc.oRun) post := by
      rw [oRunCount_split]
      simp
    have hHn : holdCount ⟨s.running, pre ++ TPc.oWait :: post⟩ =
        List.countP (fun pc => exclHolding pc) pre +
        List.countP (fun pc => exclHolding pc) post := by
      rw [holdCount_split]
      simp [exclHolding]
    refine ⟨?_, i2, ?_, ?_, ?_⟩
    · rw [hHn, ← hHo]
      exact i1
    · intro hnd hnr
      rw [running_mk, hOn, ← hOo]
      refine i3 ?_ ?_
      · intro st hmem
        rw [hth] at hmem
        have h2 := hnd st
        rw [mem_split] at hmem h2
        cases hmem with
        | inl h => exact h2 (Or.inl h)
        | inr h =>
          cases h with
          | inl h => cases h
          | inr h => exact h2 (Or.inr (Or.inr h))
      · intro hmem
        rw [hth] at hmem
        rw [mem_split] at hmem hnr
        cases hmem with
        | inl h => exact hnr (Or.inl h)
        | inr h =>
          cases h with
          | inl h => cases h
          | inr h => exact hnr (Or.inr (Or.inr h))
    · intro st hmem
      rw [running_mk, hOn, ← hOo]
      rw [threads_mk, mem_split] at hmem
      refine i4 st ?_
      rw [hth, mem_split]
      cases hmem with
      | inl h => exact Or.inl h
      | inr h =>
        cases h with
        | inl h => cases h
        | inr h => exact Or.inr (Or.inr h)
    · intro hmem
      rw [running_mk, hOn, ← hOo]
      rw [threads_mk, mem_split] at hmem
      refine i5 ?_
      rw [hth, mem_split]
      cases hmem with
      | inl h => exact Or.inl h
      | inr h =>
        cases h with
        | inl h => cases h
        | inr h => exact Or.inr (Or.inr h)
  | oReserve hth hg =>
    rename_i pre post
    have hOo : oRunCount s = List.countP (fun pc => pc == TPc.oRun) pre +
        List.countP (fun pc => pc == TPc.oRun) post := by
      rw [oRunCount_def, hth, countP_split]
      simp
    have hHo : holdCount s = List.countP (fun pc => exclHolding pc) pre +
        List.countP (fun pc => exclHolding pc) post := by
      rw [holdCount_def, hth, countP_split]
      simp [exclHolding]
    have hOn : oRunCount ⟨s.running + 1, pre ++ TPc.oRun :: post⟩ =
        List.countP (fun pc => pc == TPc.oRun) pre +
        List.countP (fun pc => pc == TPc.oRun) post + 1 := by
      rw [oRunCount_split]
      simp
    have hHn : holdCount ⟨s.running + 1, pre ++ TPc.oRun :: post⟩ =
        List.countP (fun pc => exclHolding pc) pre +
        List.countP (fun pc => exclHolding pc) post := by
      rw [holdCount_split]
      simp [exclHolding]
    refine ⟨?_, ?_, ?_, ?_, ?_⟩
    · rw [hHn, ← hHo]
      exact i1
    · rw [running_mk]
      omega
    · intro hnd hnr
      rw [hOn, running_mk]
      have h3 : oRunCount s = s.running := by
        refine i3 ?_ ?_
        · intro st hmem
          rw [hth] at hmem
          have h2 := hnd st
          rw [mem_split] at hmem h2
          cases hmem with
          | inl h => exact h2 (Or.inl h)
          | inr h =>
            cases h with
            | inl h => cases h
            | inr h => exact h2 (Or.inr (Or.inr h))
        · intro hmem
          rw [hth] at hmem
          rw [mem_split] at hmem hnr
          cases hmem with
          | inl h => exact hnr (Or.inl h)
          | inr h =>
            cases h with
            | inl h => cases h
            | inr h => exact hnr (Or.inr (Or.inr h))
      rw [hOo] at h3
      omega
    · intro st hmem
      rw [hOn, running_mk]
      rw [threads_mk, mem_split] at hmem
      have h4 : st + oRunCount s = s.running := by
        refine i4 st ?_
        rw [hth, mem_split]
        cases hmem with
        | inl h => exact Or.inl h
        | inr h =>
          cases h with
          | inl h => cases h
          | inr h => exact Or.inr (Or.inr h)
      rw [hOo] at h4
      omega
    · intro hmem
      rw [threads_mk, mem_split] at hmem
      have h5 : oRunCount s = 0 ∧ s.running = allowed := by
        refine i5 ?_
        rw [hth, mem_split]
        cases hmem with
        | inl h => exact Or.inl h
        | inr h =>
          cases h with
          | inl h => cases h
          | inr h => exact Or.inr (Or.inr h)
      omega
  | oFinish hth =>
    rename_i pre post
    have hOo : oRunCount s = List.countP (fun pc => pc == TPc.oRun) pre +
        List.countP (fun pc => pc == TPc.oRun) post + 1 := by
      rw [oRunCount_def, hth, countP_split]
      simp
    have hHo : holdCount s = List.countP (fun pc => exclHolding pc) pre +
        List.countP (fun pc => exclHolding pc) post := by
      rw [holdCount_def, hth, countP_split]
      simp [exclHolding]
    have hOn : oRunCount ⟨s.running - 1, pre ++ TPc.oDone :: post⟩ =
        List.countP (fun pc => pc == TPc.oRun) pre +
        List.countP (fun pc => pc == TPc.oRun) post := by
      rw [oRunCount_split]
      simp
    have hHn : holdCount ⟨s.running - 1, pre ++ TPc.oDone :: post⟩ =
        List.countP (fun pc => exclHolding pc) pre +
        List.countP (fun pc => exclHolding pc) post := by
      rw [holdCount_split]
      simp [exclHolding]
    refine ⟨?_, ?_, ?_, ?_, ?_⟩
    · rw [hHn, ← hHo]
      exact i1
    · rw [running_mk]
      omega
    · intro hnd hnr
      rw [hOn, running_mk]
      have h3 : oRunCount s = s.running := by
        refine i3 ?_ ?_
        · intro st hmem
          rw [hth] at hmem
          have h2 := hnd st
          rw [mem_split] at hmem h2
          cases hmem with
          | inl h => exact h2 (Or.inl h)
          | inr h =>
            cases h with
            | inl h => cases h
            | inr h => exact h2 (Or.inr (Or.inr h))
        · intro hmem
          rw [hth] at hmem
          rw [mem_split] at hmem hnr
          cases hmem with
          | inl h => exact hnr (Or.inl h)
          | inr h =>
            cases h with
            | inl h => cases h
            | inr h => exact hnr (Or.inr (Or.inr h))
      rw [hOo] at h3
      omega
    · intro st hmem
      rw [hOn, running_mk]
      rw [threads_mk, mem_split] at hmem
      have h4 : st + oRunCount s = s.running := by
        refine i4 st ?_
        rw [hth, mem_split]
        cases hmem with
        | inl h => exact Or.inl h
        | inr h =>
          cases h with
          | inl h => cases h
          | inr h => exact Or.inr (Or.inr h)
      rw [hOo] at h4
      omega
    · intro hmem
      rw [threads_mk, mem_split] at hmem
      have h5 : oRunCount s = 0 ∧ s.running = allowed := by
        refine i5 ?_
        rw [hth, mem_split]
        cases hmem with
        | inl h => exact Or.inl h
        | inr h =>
          cases h with
          | inl h => cases h
          | inr h => exact Or.inr (Or.inr h)
      rw [hOo] at h5
      omega
  | eAcquire hth hg =>
    rename_i pre post
    have hOo : oRunCount s = List.countP (fun pc => pc == TPc.oRun) pre +
        List.countP (fun pc => pc == TPc.oRun) post := by
      rw [oRunCount_def, hth, countP_split]
      simp
    have hOn : oRunCount ⟨s.running, pre ++ TPc.eLock :: post⟩ =
        List.countP (fun pc => pc == TPc.oRun) pre +
        List.countP (fun pc => pc == TPc.oRun) post := by
      rw [oRunCount_split]
      simp
    have hHn : holdCount ⟨s.running, pre ++ TPc.eLock :: post⟩ =
        List.countP (fun pc => exclHolding pc) pre +
        List.countP (fun pc => exclHolding pc) post + 1 := by
      rw [holdCount_split]
      simp [exclHolding]
    have hpre0 : List.countP (fun pc => exclHolding pc) pre = 0 := by
      rw [List.countP_eq_zero]
      intro a ha
      have := hg a (by rw [hth, mem_split]; exact Or.inl ha)
      simp [this]
    have hpost0 : List.countP (fun pc => exclHolding pc) post = 0 := by
      rw [List.countP_eq_zero]
      intro a ha
      have := hg a (by rw [hth, mem_split]; exact Or.inr (Or.inr ha))
      simp [this]
    refine ⟨?_, i2, ?_, ?_, ?_⟩
    · rw [hHn, hpre0, hpost0]
    · intro hnd hnr
      rw [running_mk, hOn, ← hOo]
      refine i3 ?_ ?_
      · intro st hmem
        rw [hth] at hmem
        have h2 := hnd st
        rw [mem_split] at hmem h2
        cases hmem with
        | inl h => exact h2 (Or.inl h)
        | inr h =>
          cases h with
          | inl h => cases h
          | inr h => exact h2 (Or.inr (Or.inr h))
      · intro hmem
        rw [hth] at hmem
        rw [mem_split] at hmem hnr
        cases hmem with
        | inl h => exact hnr (Or.inl h)
        | inr h =>
          cases h with
          | inl h => cases h
          | inr h => exact hnr (Or.inr (Or.inr h))
    · intro st hmem
      rw [running_mk, hOn, ← hOo]
      rw [threads_mk, mem_split] at hmem
      refine i4 st ?_
      rw [hth, mem_split]
      cases hmem with
      | inl h => exact Or.inl h
      | inr h =>
        cases h with
        | inl h => cases h
        | inr h => exact Or.inr (Or.inr h)
    · intro hmem
      rw [threads_mk, mem_split] at hmem
      have h5 : oRunCount s = 0 ∧ s.running = allowed := by
        refine i5 ?_
        rw [hth, mem_split]
        cases hmem with
        | inl h => exact Or.inl h
        | inr h =>
          cases h with
          | inl h => cases h
          | inr h => exact Or.inr (Or.inr h)
      rw [hOo] at h5
      refine ⟨?_, ?_⟩
      · rw [hOn]
        exact h5.1
      · rw [running_mk]
        exact h5.2
  | eSteal hth =>
    rename_i pre post
    have hOo : oRunCount s = List.countP (fun pc => pc == TPc.oRun) pre +
        List.countP (fun pc => pc == TPc.oRun) post := by
      rw [oRunCount_def, hth, countP_split]
      simp
    have hHo : holdCount s = List.countP (fun pc => exclHolding pc) pre +
        List.countP (fun pc => exclHolding pc) post + 1 := by
      rw [holdCount_def, hth, countP_split]
      simp [exclHolding]
    have hpre0 : List.countP (fun pc => exclHolding pc) pre = 0 := by omega
    have hpost0 : List.countP (fun pc => exclHolding pc) post = 0 := by omega
    have hnopre : ∀ a ∈ pre, exclHolding a = false := countP_none hpre0
    have hnopost : ∀ a ∈ post, exclHolding a = false := countP_none hpost0
    have hOn : oRunCount ⟨allowed,
        pre ++ TPc.eDrain (allowed - s.running) :: post⟩ =
        List.countP (fun pc => pc == TPc.oRun) pre +
        List.countP (fun pc => pc == TPc.oRun) post := by
      rw [oRunCount_split]
      simp
    have hHn : holdCount ⟨allowed,
        pre ++ TPc.eDrain (allowed - s.running) :: post⟩ =
        List.countP (fun pc => exclHolding pc) pre +
        List.countP (fun pc => exclHolding pc) post + 1 := by
      rw [holdCount_split]
      simp [exclHolding]
    have h3 : oRunCount s = s.running := by
      refine i3 ?_ ?_
      · intro st hmem
        rw [hth, mem_split] at hmem
        cases hmem with
        | inl h => exact absurd (hnopre _ h) (by simp [exclHolding])
        | inr h =>
          cases h with
          | inl h => cases h
          | inr h => exact absurd (hnopost _ h) (by simp [exclHolding])
      · intro hmem
        rw [hth, mem_split] at hmem
        cases hmem with
        | inl h => exact absurd (hnopre _ h) (by simp [exclHolding])
        | inr h =>
          cases h with
          | inl h => cases h
          | inr h => exact absurd (hnopost _ h) (by simp [exclHolding])
    refine ⟨?_, ?_, ?_, ?_, ?_⟩
    · rw [hHn]
      omega
    · rw [running_mk]
    · intro hnd _
      exact absurd (by rw [threads_mk, mem_split]; exact Or.inr (Or.inl rfl))
        (hnd (allowed - s.running))
    · intro st hmem
      rw [hOn, running_mk]
      rw [threads_mk, mem_split] at hmem
      cases hmem with
      | inl h => exact absurd (hnopre _ h) (by simp [exclHolding])
      | inr h =>
        cases h with
        | inl h =>
          cases h
          rw [hOo] at h3
          omega
        | inr h => exact absurd (hnopost _ h) (by simp [exclHolding])
    · intro hmem
      rw [threads_mk, mem_split] at hmem
      cases hmem with
      | inl h => exact absurd (hnopre _ h) (by simp [exclHolding])
      | inr h =>
        cases h with
        | inl h => cases h
        | inr h => exact absurd (hnopost _ h) (by simp [exclHolding])
  | eResteal hth hg =>
    rename_i pre post st0
    have hOo : oRunCount s = List.countP (fun pc => pc == TPc.oRun) pre +
        List.countP (fun pc => pc == TPc.oRun) post := by
      rw [oRunCount_def, hth, countP_split]
      simp
    have hHo : holdCount s = List.countP (fun pc => exclHolding pc) pre +
        List.countP (fun pc => exclHolding pc) post + 1 := by
      rw [holdCount_def, hth, countP_split]
      simp [exclHolding]
    have hpre0 : List.countP (fun pc => exclHolding pc) pre = 0 := by omega
    have hpost0 : List.countP (fun pc => exclHolding pc) post = 0 := by omega
    have hnopre : ∀ a ∈ pre, exclHolding a = false := countP_none hpre0
    have hnopost : ∀ a ∈ post, exclHolding a = false := countP_none hpost0
    have hOn : oRunCount ⟨allowed,
        pre ++ TPc.eDrain (st0 + (allowed - s.running)) :: post⟩ =
        List.countP (fun pc => pc == TPc.oRun) pre +
        List.countP (fun pc => pc == TPc.oRun) post := by
      rw [oRunCount_split]
      simp
    have hHn : holdCount ⟨allowed,
        pre ++ TPc.eDrain (st0 + (allowed - s.running)) :: post⟩ =
        List.countP (fun pc => exclHolding pc) pre +
        List.countP (fun pc => exclHolding pc) post + 1 := by
      rw [holdCount_split]
      simp [exclHolding]
    have h4 : st0 + oRunCount s = s.running := by
      refine i4 st0 ?_
      rw [hth, mem_split]
      exact Or.inr (Or.inl rfl)
    refine ⟨?_, ?_, ?_, ?_, ?_⟩
    · rw [hHn]
      omega
    · rw [running_mk]
    · intro hnd _
      exact absurd (by rw [threads_mk, mem_split]; exact Or.inr (Or.inl rfl))
        (hnd (st0 + (allowed - s.running)))
    · intro st hmem
      rw [hOn, running_mk]
      rw [threads_mk, mem_split] at hmem
      cases hmem with
      | inl h => exact absurd (hnopre _ h) (by simp [exclHolding])
      | inr h =>
        cases h with
        | inl h =>
          cases h
          rw [hOo] at h4
          omega
        | inr h => exact absurd (hnopost _ h) (by simp [exclHolding])
    · intro hmem
      rw [threads_mk, mem_split] at hmem
      cases hmem with
      | inl h => exact absurd (hnopre _ h) (by simp [exclHolding])
      | inr h =>
        cases h with
        | inl h => cases h
        | inr h => exact absurd (hnopost _ h) (by simp [exclHolding])
  | eEnter hth hg =>
    rename_i pre post st0
    have hOo : oRunCount s = List.countP (fun pc => pc == TPc.oRun) pre +
        List.countP (fun pc => pc == TPc.oRun) post := by
      rw [oRunCount_def, hth, countP_split]
      simp
    have hHo : holdCount s = List.countP (fun pc => exclHolding pc) pre +
        List.countP (fun pc => exclHolding pc) post + 1 := by
      rw [holdCount_def, hth, countP_split]
      simp [exclHolding]
    have hpre0 : List.countP (fun pc => exclHolding pc) pre = 0 := by omega
    have hpost0 : List.countP (fun pc => exclHolding pc) post = 0 := by omega
    have hnopre : ∀ a ∈ pre, exclHolding a = false := countP_none hpre0
    have hnopost : ∀ a ∈ post, exclHolding a = false := countP_none hpost0
    have hOn : oRunCount ⟨s.running, pre ++ TPc.eRun :: post⟩ =
        List.countP (fun pc => pc == TPc.oRun) pre +
        List.countP (fun pc => pc == TPc.oRun) post := by
      rw [oRunCount_split]
      simp
    have hHn : holdCount ⟨s.running, pre ++ TPc.eRun :: post⟩ =
        List.countP (fun pc => exclHolding pc) pre +
        List.countP (fun pc => exclHolding pc) post + 1 := by
      rw [holdCount_split]
      simp [exclHolding]
    have h4 : st0 + oRunCount s = s.running := by
      refine i4 st0 ?_
      rw [hth, mem_split]
      exact Or.inr (Or.inl rfl)
    refine ⟨?_, ?_, ?_, ?_, ?_⟩
    · rw [hHn]
      omega
    · rw [running_mk]
      exact i2
    · intro _ hnr
      exact absurd (by rw [threads_mk, mem_split]; exact Or.inr (Or.inl rfl))
        hnr
    · intro st hmem
      rw [threads_mk, mem_split] at hmem
      cases hmem with
      | inl h => exact absurd (hnopre _ h) (by simp [exclHolding])
      | inr h =>
        cases h with
        | inl h => cases h
        | inr h => exact absurd (hnopost _ h) (by simp [exclHolding])
    · intro _
      rw [hOn, running_mk]
      rw [hOo] at h4
      constructor
      · omega
      · omega
  | eFinish hth =>
    rename_i pre post
    have hOo : oRunCount s = List.countP (fun pc => pc == TPc.oRun) pre +
        List.countP (fun pc => pc == TPc.oRun) post := by
      rw [oRunCount_def, hth, countP_split]
      simp
    have hHo : holdCount s = List.countP (fun pc => exclHolding pc) pre +
        List.countP (fun pc => exclHolding pc) post + 1 := by
      rw [holdCount_def, hth, countP_split]
      simp [exclHolding]
    have hpre0 : List.countP (fun pc => exclHolding pc) pre = 0 := by omega
    have hpost0 : List.countP (fun pc => exclHolding pc) post = 0 := by omega
    have hnopre : ∀ a ∈ pre, exclHolding a = false := countP_none hpre0
    have hnopost : ∀ a ∈ post, exclHolding a = false := countP_none hpost0
    have hOn : oRunCount ⟨0, pre ++ TPc.eDone :: post⟩ =
        List.countP (fun pc => pc == TPc.oRun) pre +
        List.countP (fun pc => pc == TPc.oRun) post := by
      rw [oRunCount_split]
      simp
    have hHn : holdCount ⟨0, pre ++ TPc.eDone :: post⟩ =
        List.countP (fun pc => exclHolding pc) pre +
        List.countP (fun pc => exclHolding pc) post := by
      rw [holdCount_split]
      simp [exclHolding]
    have h5 : oRunCount s = 0 ∧ s.running = allowed := by
      refine i5 ?_
      rw [hth, mem_split]
      exact Or.inr (Or.inl rfl)
    refine ⟨?_, ?_, ?_, ?_, ?_⟩
    · rw [hHn]
      omega
    · rw [running_mk]
      omega
    · intro _ _
      rw [hOn, running_mk]
      rw [hOo] at h5
      omega
    · intro st hmem
      rw [threads_mk, mem_split] at hmem
      cases hmem with
      | inl h => exact absurd (hnopre _ h) (by simp [exclHolding])
      | inr h =>
        cases h with
        | inl h => cases h
        | inr h => exact absurd (hnopost _ h) (by simp [exclHolding])
    · intro hmem
      rw [threads_mk, mem_split] at hmem
      cases hmem with
      | inl h => exact absurd (hnopre _ h) (by simp [exclHolding])
      | inr h =>
        cases h with
        | inl h => cases h
        | inr h => exact absurd (hnopost _ h) (by simp [exclHolding])

theorem schedInv_init {allowed : Nat} {s : Sched} (hinit : SchedInit s) :
    SchedInv allowed s := by
  obtain ⟨hrun, hth⟩ := hinit
  refine ⟨?_, ?_, ?_, ?_, ?_⟩
  · rw [holdCount_def, List.countP_eq_zero.mpr ?_]
    · omega
    · intro a ha
      cases hth a ha with
      | inl h => rw [h]; simp [exclHolding]
      | inr h => rw [h]; simp [exclHolding]
  · omega
  · intro _ _
    rw [hrun, oRunCount_def, List.countP_eq_zero.mpr ?_]
    intro a ha
    cases hth a ha with
    | inl h => rw [h]; simp
    | inr h => rw [h]; simp
  · intro st hmem
    cases hth _ hmem with
    | inl h => cases h
    | inr h => cases h
  · intro hmem
    cases hth _ hmem with
    | inl h => cases h
    | inr h => cases h

theorem schedInv_reach {allowed : Nat} {s0 s : Sched} (hinit : SchedInit s0)
    (hreach : SchedReach allowed s0 s) : SchedInv allowed s := by
  induction hreach with
  | refl => exact schedInv_init hinit
  | tail _ hstep ih => exact schedInv_step ih hstep

theorem countP_orRun (l : List TPc) :
    List.countP (fun pc => pc == TPc.oRun || pc == TPc.eRun) l =
      List.countP (fun pc => pc == TPc.oRun) l +
      List.countP (fun pc => pc == TPc.eRun) l := by
  induction l with
  | nil => rfl
  | cons a l ih =>
    rw [List.countP_cons, List.countP_cons, List.countP_cons, ih]
    cases a <;> simp <;> omega

theorem recipesRunning_eq (s : Sched) :
    recipesRunning s = oRunCount s +
      List.countP (fun pc => pc == TPc.eRun) s.threads :=
  countP_orRun s.threads

/-- C9 amended: assuming a parallelism cap of at least one, in every
reachable state of the subprocess-slot protocol the number of recipes in
the running-subprocess state is at most the cap; furthermore, for any
cap, whenever an exclusive recipe is in its running section it is the
only recipe running and no ordinary recipe runs concurrently, and the
counter never exceeds the cap. -/
theorem c9_parallel_bound_amended (allowed : Nat) (s0 s : Sched)
    (hinit : SchedInit s0) (hreach : SchedReach allowed s0 s) :
    (1 ≤ allowed → recipesRunning s ≤ allowed) ∧
    (TPc.eRun ∈ s.threads → recipesRunning s = 1 ∧ oRunCount s = 0) ∧
    s.running ≤ allowed := by
  obtain ⟨i1, i2, i3, i4, i5⟩ := schedInv_reach hinit hreach
  have hrr := recipesRunning_eq s
  have hmono : List.countP (fun pc => pc == TPc.eRun) s.threads ≤
      holdCount s := by
    rw [holdCount_def]
    refine List.countP_mono_left ?_
    intro a _ ha
    rw [beq_iff_eq.mp ha]
    rfl
  refine ⟨?_, ?_, i2⟩
  · intro hA
    by_cases her : TPc.eRun ∈ s.threads
    · obtain ⟨ho, hrun⟩ := i5 her
      omega
    · have he0 : List.countP (fun pc => pc == TPc.eRun) s.threads = 0 := by
        rw [List.countP_eq_zero]
        intro a ha hpa
        exact her (beq_iff_eq.mp hpa ▸ ha)
      by_cases hd : ∃ st, TPc.eDrain st ∈ s.threads
      · obtain ⟨st, hst⟩ := hd
        have h4 := i4 st hst
        omega
      · push_neg at hd
        have h3 := i3 hd her
        omega
  · intro her
    obtain ⟨ho, hrun⟩ := i5 her
    have he2 : 0 < List.countP (fun pc => pc == TPc.eRun) s.threads :=
      countP_of_mem her (by rfl)
    exact ⟨by omega, ho⟩

/-- C9 counterexample: the claim asserts that the count of running
recipes never exceeds the cap P, for every P.  The flag parser accepts
p equal to zero, and with a zero cap an exclusive worker acquires the
mutex, steals zero minus zero slots, finds the drain loop guard already
false and enters its recipe: one recipe runs while the cap is zero. -/
theorem c9_parallel_bound_counterexample :
    SchedInit ⟨0, [TPc.eIdle]⟩ ∧
    SchedReach 0 ⟨0, [TPc.eIdle]⟩ ⟨0, [TPc.eRun]⟩ ∧
    recipesRunning ⟨0, [TPc.eRun]⟩ = 1 ∧
    ¬(recipesRunning ⟨0, [TPc.eRun]⟩ ≤ 0) := by
  refine ⟨⟨rfl, ?_⟩, ?_, by decide, by decide⟩
  · intro c hpc
    rw [List.mem_singleton.mp hpc]
    exact Or.inr rfl
  · have st1 : SchedStep 0 ⟨0, [TPc.eIdle]⟩ ⟨0, [TPc.eLock]⟩ :=
      @SchedStep.eAcquire 0 ⟨0, [TPc.eIdle]⟩ [] [] rfl
        (fun pc hpc => by rw [List.mem_singleton.mp hpc]; rfl)
    have st2 : SchedStep 0 ⟨0, [TPc.eLock]⟩ ⟨0, [TPc.eDrain 0]⟩ :=
      @SchedStep.eSteal 0 ⟨0, [TPc.eLock]⟩ [] [] rfl
    have st3 : SchedStep 0 ⟨0, [TPc.eDrain 0]⟩ ⟨0, [TPc.eRun]⟩ :=
      @SchedStep.eEnter 0 ⟨0, [TPc.eDrain 0]⟩ [] [] 0 rfl (le_refl 0)
    exact Relation.ReflTransGen.head st1
      (Relation.ReflTransGen.head st2
        (Relation.ReflTransGen.head st3 Relation.ReflTransGen.refl))

/-- C9 witness: the amended bound applied to the initial single-worker
state with cap one. -/
theorem c9_parallel_bound_witness :
    recipesRunning ⟨0, [TPc.oIdle]⟩ ≤ 1 :=
  (c9_parallel_bound_amended 1 ⟨0, [TPc.oIdle]⟩ ⟨0, [TPc.oIdle]⟩
    ⟨rfl, fun _ hpc => Or.inl (List.mem_singleton.mp hpc)⟩
    Relation.ReflTransGen.refl).1 (le_refl 1)
/-! C10: the concrete-target index. -/

theorem addRule_fold_mem (K : Nat) :
    ∀ (ps : List MkPattern) (tr : Str → List Nat) (name : Str) (k : Nat),
      k ∈ (ps.foldl (fun tr p =>
        match p.rpat with
        | none => fun n2 => if n2 = p.spat then tr n2 ++ [K] else tr n2
        | some _ => tr) tr) name ↔
      k ∈ tr name ∨ ∃ p ∈ ps, p.rpat = none ∧ p.spat = name ∧ k = K := by
  intro ps
  induction ps with
  | nil =>
    intro tr name k
    simp
  | cons p ps ih =>
    intro tr name k
    rw [List.foldl_cons]
    cases hrp : p.rpat with
    | some x =>
      simp only [hrp]
      rw [ih]
      constructor
      · rintro (h | ⟨q, hq, h1, h2, h3⟩)
        · exact Or.inl h
        · exact Or.inr ⟨q, List.mem_cons_of_mem p hq, h1, h2, h3⟩
      · rintro (h | ⟨q, hq, h1, h2, h3⟩)
        · exact Or.inl h
        · cases List.mem_cons.mp hq with
          | inl he =>
            rw [he] at h1
            rw [h1] at hrp
            cases hrp
          | inr hm => exact Or.inr ⟨q, hm, h1, h2, h3⟩
    | none =>
      simp only [hrp]
      rw [ih]
      have hbase : k ∈ (if name = p.spat then tr name ++ [K] else tr name) ↔
          k ∈ tr name ∨ (name = p.spat ∧ k = K) := by
        by_cases hn : name = p.spat
        · rw [if_pos hn]
          simp [hn]
        · rw [if_neg hn]
          simp [hn]
      rw [hbase]
      constructor
      · rintro ((h | ⟨h1, h2⟩) | ⟨q, hq, h1, h2, h3⟩)
        · exact Or.inl h
        · exact Or.inr ⟨p, List.mem_cons_self p ps, hrp, h1.symm, h2⟩
        · exact Or.inr ⟨q, List.mem_cons_of_mem p hq, h1, h2, h3⟩
      · rintro (h | ⟨q, hq, h1, h2, h3⟩)
        · exact Or.inl (Or.inl h)
        · cases List.mem_cons.mp hq with
          | inl he =>
            rw [he] at h1 h2
            exact Or.inl (Or.inr ⟨h2.symm, h3⟩)
          | inr hm => exact Or.inr ⟨q, hm, h1, h2, h3⟩

theorem addRule_mem (rs : RuleSetM) (r : MkRule) (name : Str) (k : Nat) :
    k ∈ (addRule rs r).targetrules name ↔
      k ∈ rs.targetrules name ∨
      (k = rs.rules.length ∧
        ∃ p ∈ r.targets, p.rpat = none ∧ p.spat = name) := by
  have hK : (rs.rules ++ [r]).length - 1 = rs.rules.length := by simp
  have h := addRule_fold_mem ((rs.rules ++ [r]).length - 1) r.targets
    rs.targetrules name k
  constructor
  · intro hm
    rcases h.mp hm with h0 | ⟨p, hp, h1, h2, h3⟩
    · exact Or.inl h0
    · rw [hK] at h3
      exact Or.inr ⟨h3, p, hp, h1, h2⟩
  · intro hm
    refine h.mpr ?_
    rcases hm with h0 | ⟨h3, p, hp, h1, h2⟩
    · exact Or.inl h0
    · rw [← hK] at h3
      exact Or.inr ⟨p, hp, h1, h2, h3⟩

theorem wellIndexed_empty : WellIndexed emptyRuleSet := by
  intro name k hk
  exact absurd hk (List.not_mem_nil k)

theorem wellIndexed_add {rs : RuleSetM} (hw : WellIndexed rs) (r : MkRule) :
    WellIndexed (addRule rs r) := by
  intro name k hk
  rcases (addRule_mem rs r name k).mp hk with h0 | ⟨hke, p, hp, h1, h2⟩
  · obtain ⟨hlt, p, hp, h1, h2⟩ := hw name k h0
    have hlt2 : k < (addRule rs r).rules.length := by
      simp only [addRule]
      simp only [List.length_append, List.length_cons, List.length_nil]
      omega
    refine ⟨hlt2, p, ?_, h1, h2⟩
    have hget : (addRule rs r).rules.get ⟨k, hlt2⟩ = rs.rules.get ⟨k, hlt⟩ := by
      simp only [addRule]
      simp only [List.get_eq_getElem]
      exact List.getElem_append_left hlt
    rw [hget]
    exact hp
  · have hlt2 : k < (addRule rs r).rules.length := by
      simp only [addRule, hke]
      simp only [List.length_append, List.length_cons, List.length_nil]
      omega
    refine ⟨hlt2, p, ?_, h1, h2⟩
    have hget : (addRule rs r).rules.get ⟨k, hlt2⟩ = r := by
      simp only [addRule, List.get_eq_getElem]
      have hlt3 : rs.rules.length < (rs.rules ++ [r]).length := by simp
      have hco := List.getElem_concat_length rs.rules r rs.rules.length rfl
        hlt3
      have hkk : (rs.rules ++ [r])[k] = (rs.rules ++ [r])[rs.rules.length] :=
        by congr 1
      rw [hkk, hco]
    rw [hget]
    exact hp

theorem wellIndexed_foldl (rules : List MkRule) :
    WellIndexed (rules.foldl addRule emptyRuleSet) := by
  have hgen : ∀ (l : List MkRule) (rs : RuleSetM), WellIndexed rs →
      WellIndexed (l.foldl addRule rs) := by
    intro l
    induction l with
    | nil => intro rs h; exact h
    | cons r l ih =>
      intro rs h
      rw [List.foldl_cons]
      exact ih (addRule rs r) (wellIndexed_add h r)
  exact hgen rules emptyRuleSet wellIndexed_empty

theorem indexAny_ne_none {cs : List Char} {c : Char} (hc : c ∈ cs) :
    ∀ {s : Str}, c ∈ s → indexAny cs s ≠ none
  | x :: rest, hs => by
    rw [indexAny]
    by_cases hx : x ∈ cs
    · rw [if_pos hx]
      intro h
      cases h
    · rw [if_neg hx]
      have hcr : c ∈ rest := by
        cases List.mem_cons.mp hs with
        | inl he => exact absurd (he ▸ hc) hx
        | inr hm => exact hm
      have ih := indexAny_ne_none hc hcr
      cases hrec : indexAny cs rest with
      | some j => intro h2; cases h2
      | none => exact absurd hrec ih

theorem mkTargetPattern_literal (isRegexRule : Bool) (targetstr : Str) :
    (mkTargetPattern isRegexRule targetstr).rpat = none ↔
      isRegexRule = false ∧ '%' ∉ targetstr := by
  cases isRegexRule with
  | true =>
    rw [mkTargetPattern, if_pos rfl]
    simp
  | false =>
    rw [mkTargetPattern, if_neg (by simp)]
    cases hidx : indexRune '%' targetstr with
    | some i =>
      simp only [hidx]
      constructor
      · intro h; cases h
      · rintro ⟨_, hnm⟩
        rw [indexRune_eq_none hnm] at hidx
        cases hidx
    | none =>
      simp only [hidx]
      constructor
      · intro _
        exact ⟨trivial, fun hmem =>
          indexAny_ne_none (List.mem_singleton_self _) hmem hidx⟩
      · intro _
        trivial

/-- C10: the concrete-target index.  Adding a rule to a rule set
registers the new rule index under a target name exactly when some
target pattern of the rule has that name as its text and a nil compiled
regex; every rule set built by successive adds is well indexed, meaning
every index entry points at a rule with a literal nil-regex target
pattern of that name, so the concrete-match step of applyrules only ever
consults literal-target rules; and the parser produces a nil compiled
regex exactly for targets of non-regex rules whose text contains no
percent, so suffix and regex patterns never enter the concrete index. -/
theorem c10_concrete_index (rs : RuleSetM) (r : MkRule) (name : Str)
    (k : Nat) (rules : List MkRule) (b : Bool) (ts : Str) :
    (k ∈ (addRule rs r).targetrules name ↔
      k ∈ rs.targetrules name ∨
      (k = rs.rules.length ∧
        ∃ p ∈ r.targets, p.rpat = none ∧ p.spat = name))
    ∧ WellIndexed (rules.foldl addRule emptyRuleSet)
    ∧ ((mkTargetPattern b ts).rpat = none ↔ b = false ∧ '%' ∉ ts) :=
  ⟨addRule_mem rs r name k, wellIndexed_foldl rules,
    mkTargetPattern_literal b ts⟩

/-- C10 witness: adding the one-target literal rule to the empty rule
set registers index zero under its target name. -/
theorem c10_concrete_index_witness :
    (0 : Nat) ∈ (addRule emptyRuleSet c10rule).targetrules ['a'] :=
  ((c10_concrete_index emptyRuleSet c10rule ['a'] 0 [] false []).1).mpr
    (Or.inr ⟨rfl, { issuffix := false, spat := ['a'], rpat := none },
      List.mem_cons_self _ _, rfl, rfl⟩)
end Mk
